import Mathlib

/-!
# Voice shopping assistant: command parser, categorizer and list engine

A shallow embedding of `src/utils/nlp.js` (`toNumber`, `parseCommand`,
`categorize`) and of the list operations of `src/App.jsx`
(`normalizeName`, `addItem`, ...), followed by theorems about them.

Strings are lists of characters.  The regular expressions of the source are
kept as syntax trees (`Re`) and run by a backtracking matcher that lists the
ways a pattern can match in the priority order of the JavaScript engine; the
first entry is the match the engine reports.
-/

namespace Shop

/-- JavaScript strings, as lists of characters. -/
abbrev Str := List Char

/-! ## Character classes -/

/-- Line terminators: the characters `.` does not match. -/
def isLineTerminator (c : Char) : Bool :=
  c.toNat == 10 || c.toNat == 13 || c.toNat == 0x2028 || c.toNat == 0x2029

/-- The class `.` (no `s` flag): any character but a line terminator. -/
def isDot (c : Char) : Bool := !isLineTerminator c

/-- The class `\s`, which is also the set `String.prototype.trim` strips:
white space and line terminators. -/
def isWhiteSpace (c : Char) : Bool :=
  c.toNat == 9 || c.toNat == 10 || c.toNat == 11 || c.toNat == 12 || c.toNat == 13 ||
  c.toNat == 32 || c.toNat == 0xA0 || c.toNat == 0x1680 ||
  (0x2000 ≤ c.toNat && c.toNat ≤ 0x200A) ||
  c.toNat == 0x2028 || c.toNat == 0x2029 || c.toNat == 0x202F || c.toNat == 0x205F ||
  c.toNat == 0x3000 || c.toNat == 0xFEFF

/-- The class `\d`: the ASCII digits. -/
def isDigit (c : Char) : Bool := 48 ≤ c.toNat && c.toNat ≤ 57

/-- The class `\w`: ASCII letters, digits and the underscore. -/
def isWordChar (c : Char) : Bool :=
  (97 ≤ c.toNat && c.toNat ≤ 122) || (65 ≤ c.toNat && c.toNat ≤ 90) ||
  isDigit c || c.toNat == 95

/-! ## String built-ins -/

/-- Lower-casing of one character: `A`..`Z` go to `a`..`z`; every other
character is kept.  The built-in also lower-cases the capital letters outside
ASCII (`É` to `é`, the Kelvin sign to `k`); on ASCII text, which is all the
patterns and tables of the source mention, the two agree.  The theorems below
use the lower-cased text as a given text, or assume ASCII where the mapping of
single letters matters. -/
def toLowerChar (c : Char) : Char :=
  if 65 ≤ c.toNat ∧ c.toNat ≤ 90 then Char.ofNat (c.toNat + 32) else c

/-- The method `String.prototype.toLowerCase`, character by character. -/
def toLowerCase (s : Str) : Str := s.map toLowerChar

/-- The method `String.prototype.trimStart`. -/
def trimStart (s : Str) : Str := s.dropWhile isWhiteSpace

/-- The method `String.prototype.trimEnd`. -/
def trimEnd (s : Str) : Str := (s.reverse.dropWhile isWhiteSpace).reverse

/-- The method `String.prototype.trim`. -/
def trim (s : Str) : Str := trimEnd (trimStart s)

/-- Does `s` begin with `w`?  Returns what follows `w`. -/
def dropLit : Str → Str → Option Str
  | [], s => some s
  | _ :: _, [] => none
  | a :: w, b :: s => if a = b then dropLit w s else none

/-- The method `String.prototype.includes`: `k` occurs in `t` as a substring. -/
def includes : Str → Str → Bool
  | [], k => (dropLit k []).isSome
  | x :: xs, k => (dropLit k (x :: xs)).isSome || includes xs k

/-! ## Regular expressions -/

/-- The named capture groups used by the patterns of `parseCommand`. -/
inductive Group where
  | item
  | max
  | qty
  deriving DecidableEq, Repr

/-- The values of the named groups of a match; `none` is `undefined`. -/
structure Caps where
  item : Option Str := none
  max : Option Str := none
  qty : Option Str := none
  deriving DecidableEq, Repr

/-- Record the text captured by a group. -/
def Caps.set (c : Caps) : Group → Str → Caps
  | .item, m => { c with item := some m }
  | .max, m => { c with max := some m }
  | .qty, m => { c with qty := some m }

/-- The fragment of regular expressions the source uses.  Quantifiers `+`,
`*` and `+?` are only ever applied to character classes there; `?` is
applied to groups.  Every pattern starts with `^`, so a match is always
attempted at the start of the text only. -/
inductive Re where
  /-- a literal string -/
  | lit (w : Str)
  /-- one character of a class -/
  | chr (p : Char → Bool)
  /-- sequence `ab` -/
  | seq (a b : Re)
  /-- alternation `a|b`, left first -/
  | alt (a b : Re)
  /-- greedy optional `(a)?` -/
  | opt (a : Re)
  /-- greedy `c+` on a character class -/
  | plus (p : Char → Bool)
  /-- greedy `c*` on a character class -/
  | star (p : Char → Bool)
  /-- lazy `c+?` on a character class -/
  | plusLazy (p : Char → Bool)
  /-- named capture group `(?<g>a)` -/
  | grp (g : Group) (a : Re)
  /-- end of input `$` (no `m` flag) -/
  | eoi

/-- What can be left after a greedy `c*`: longest run first, then shorter
ones down to the empty run. -/
def greedyRests (p : Char → Bool) : Str → List Str
  | [] => [[]]
  | x :: xs => if p x then greedyRests p xs ++ [x :: xs] else [x :: xs]

/-- What can be left after a lazy `c*?`: the empty run first, then longer
ones. -/
def lazyRests (p : Char → Bool) : Str → List Str
  | [] => [[]]
  | x :: xs => (x :: xs) :: (if p x then lazyRests p xs else [])

/-- The backtracking matcher.  `run r s c` lists, in the order a backtracking
engine tries them, every way `r` matches at the start of `s`: the text left
over and the captures, starting from captures `c`. -/
def Re.run : Re → Str → Caps → List (Str × Caps)
  | .lit w, s, c =>
    match dropLit w s with
    | some rest => [(rest, c)]
    | none => []
  | .chr p, s, c =>
    match s with
    | [] => []
    | x :: xs => if p x then [(xs, c)] else []
  | .seq a b, s, c => (a.run s c).flatMap (fun x => b.run x.1 x.2)
  | .alt a b, s, c => a.run s c ++ b.run s c
  | .opt a, s, c => a.run s c ++ [(s, c)]
  | .plus p, s, c =>
    match s with
    | [] => []
    | x :: xs => if p x then (greedyRests p xs).map (fun r => (r, c)) else []
  | .star p, s, c => (greedyRests p s).map (fun r => (r, c))
  | .plusLazy p, s, c =>
    match s with
    | [] => []
    | x :: xs => if p x then (lazyRests p xs).map (fun r => (r, c)) else []
  | .grp g a, s, c =>
    (a.run s c).map (fun x => (x.1, x.2.set g (s.take (s.length - x.1.length))))
  | .eoi, s, c => if s = [] then [(s, c)] else []

/-- The method `String.prototype.match` for a pattern anchored with `^`:
the captures of the first match, or `none` for `null`. -/
def Re.exec (r : Re) (s : Str) : Option Caps :=
  ((r.run s {}).head?).map (fun x => x.2)

/-- Alternation of several patterns, left to right. -/
def Re.alts : List Re → Re
  | [] => .lit []
  | [a] => a
  | a :: b :: rest => .alt a (Re.alts (b :: rest))

/-- Sequence of several patterns. -/
def Re.seqs : List Re → Re
  | [] => .lit []
  | [a] => a
  | a :: b :: rest => .seq a (Re.seqs (b :: rest))

/-- A literal, written as a string. -/
def L (w : String) : Re := .lit w.toList

/-! ## `nlp.js` -/

/-- The table `numberWords`. -/
def numberWords : List (Str × Int) :=
  [("one".toList, 1), ("two".toList, 2), ("three".toList, 3), ("four".toList, 4),
   ("five".toList, 5), ("six".toList, 6), ("seven".toList, 7), ("eight".toList, 8),
   ("nine".toList, 9), ("ten".toList, 10)]

/-- The largest bound up to which every integer is a double, `2^53`: digit
strings of at most this value are read exactly by `parseInt` and `Number`. -/
def maxExact : Nat := 9007199254740992

/-- Value of a run of decimal digits, most significant first, continuing
from `acc`. -/
def digitsValue (acc : Nat) : Str → Nat
  | [] => acc
  | d :: ds => digitsValue (acc * 10 + (d.toNat - 48)) ds

/-- The function `parseInt(s, 10)`: leading white space is skipped, a sign is
read, then the longest run of decimal digits; `none` is `NaN`.  The result
here is the exact integer of the digits.  The code's result is a double: it is
that integer as long as it is at most `2^53` (`maxExact`), and a rounded value
(or `Infinity`) above.  Statements that name the value of a digit string
carry the bound `maxExact`. -/
def parseInt10 (s : Str) : Option Int :=
  let t := trimStart s
  let neg : Bool := match t with
    | c :: _ => c == '-'
    | [] => false
  let body := match t with
    | c :: rest => if c == '-' || c == '+' then rest else t
    | [] => t
  let z := body.takeWhile isDigit
  if z = [] then none
  else if neg then some (-(digitsValue 0 z : Int)) else some (digitsValue 0 z : Int)

/-- The function `toNumber`: `undefined` gives 1, a token `parseInt` reads gives
that number, otherwise the `numberWords` entry when there is one (and it is
not zero), else 1. -/
def toNumber (token : Option Str) : Int :=
  match token with
  | none => 1
  | some tok =>
    if tok = [] then 1
    else match parseInt10 tok with
      | some n => n
      | none =>
        match numberWords.lookup (toLowerCase tok) with
        | some n => if n = 0 then 1 else n
        | none => 1

/-- The result of `parseCommand`; `maxPrice = none` is `undefined`. -/
inductive Command where
  | search (item : Str) (maxPrice : Option Int)
  | add (item : Str) (qty : Int)
  | remove (item : Str)
  | modify (item : Str) (qty : Int)
  | unknown
  deriving DecidableEq, Repr

/-- The quantity token `\d+|one|two|three|four|five|six|seven|eight|nine|ten`. -/
def qtyRe : Re :=
  Re.alts [.plus isDigit, L "one", L "two", L "three", L "four", L "five", L "six",
    L "seven", L "eight", L "nine", L "ten"]

/-- The end of the search patterns, `( under (?<max>\d+))?$`. -/
def underTail : Re := .seq (.opt (.seq (L " under ") (.grp .max (.plus isDigit)))) .eoi

/-- The tail `(?<item>.+?)( under (?<max>\d+))?$` of both search patterns. -/
def searchTail : Re := .seq (.grp .item (.plusLazy isDot)) underTail

/-- Line 19: `/^find( me)? (?<item>.+?)( under (?<max>\d+))?$/`. -/
def findRe : Re := Re.seqs [L "find", .opt (L " me"), L " ", searchTail]

/-- Line 20: `/^(search|look for) (?<item>.+?)( under (?<max>\d+))?$/`. -/
def searchRe : Re := Re.seqs [Re.alts [L "search", L "look for"], L " ", searchTail]

/-- Line 27: `/^(add|buy|i need|i want to buy|put|include)\s+(?<qty>...)?\s*(?<item>.+)$/`. -/
def addRe : Re :=
  Re.seqs [Re.alts [L "add", L "buy", L "i need", L "i want to buy", L "put", L "include"],
    .plus isWhiteSpace, .opt (.grp .qty qtyRe), .star isWhiteSpace,
    .grp .item (.plus isDot), .eoi]

/-- Line 34: `/^(remove|delete|take (off|out))\s+(?<item>.+)$/`. -/
def removeRe : Re :=
  Re.seqs [Re.alts [L "remove", L "delete", .seq (L "take ") (Re.alts [L "off", L "out"])],
    .plus isWhiteSpace, .grp .item (.plus isDot), .eoi]

/-- Line 40: `/^(change|set|update)\s+(?<item>.+?)\s+(to)\s+(?<qty>...)$/`. -/
def modifyRe : Re :=
  Re.seqs [Re.alts [L "change", L "set", L "update"], .plus isWhiteSpace,
    .grp .item (.plusLazy isDot), .plus isWhiteSpace, L "to", .plus isWhiteSpace,
    .grp .qty qtyRe, .eoi]

/-- Line 46: `/^(add|buy).+?(?<qty>...)\s+(\w+\s+of\s+)?(?<item>.+)$/`. -/
def nounRe : Re :=
  Re.seqs [Re.alts [L "add", L "buy"], .plusLazy isDot, .grp .qty qtyRe, .plus isWhiteSpace,
    .opt (Re.seqs [.plus isWordChar, .plus isWhiteSpace, L "of", .plus isWhiteSpace]),
    .grp .item (.plus isDot), .eoi]

/-- The captured group `item`, trimmed; the group always takes part in a
match of the patterns above. -/
def itemOf (m : Caps) : Str := trim (m.item.getD [])

/-- The expression `m.groups?.max ? Number(m.groups.max) : undefined`: the
group `max`, when it took part in the match and is not empty, is a run of
digits.  The result here is the exact integer of the digits, which is what
`Number` gives as long as it is at most `2^53` (`maxExact`); above, `Number`
rounds.  Statements that name the value carry the bound `maxExact`. -/
def maxPriceOf (m : Caps) : Option Int :=
  match m.max with
  | none => none
  | some d => if d = [] then none else some (digitsValue 0 d : Int)

/-- The function `parseCommand`. -/
def parseCommand (text : Str) : Command :=
  if text = [] then .unknown
  else
    let t := trim (toLowerCase text)
    match (findRe.exec t).orElse (fun _ => searchRe.exec t) with
    | some m => .search (itemOf m) (maxPriceOf m)
    | none =>
    match addRe.exec t with
    | some m => .add (itemOf m) (toNumber m.qty)
    | none =>
    match removeRe.exec t with
    | some m => .remove (itemOf m)
    | none =>
    match modifyRe.exec t with
    | some m => .modify (itemOf m) (toNumber m.qty)
    | none =>
    match nounRe.exec t with
    | some m => .add (itemOf m) (toNumber m.qty)
    | none => .unknown

/-- The table `map` of `categorize`: categories in order, each with its
keywords. -/
def categoryMap : List (Str × List Str) :=
  [("Dairy".toList, ["milk".toList, "cheese".toList, "yogurt".toList, "butter".toList,
      "paneer".toList, "curd".toList]),
   ("Produce".toList, ["apple".toList, "banana".toList, "orange".toList, "tomato".toList,
      "onion".toList, "potato".toList, "mango".toList, "spinach".toList]),
   ("Bakery".toList, ["bread".toList, "bun".toList, "bagel".toList]),
   ("Snacks".toList, ["chips".toList, "biscuits".toList, "cookie".toList, "namkeen".toList]),
   ("Beverages".toList, ["juice".toList, "soda".toList, "tea".toList, "coffee".toList,
      "water".toList]),
   ("Household".toList, ["soap".toList, "detergent".toList, "toothpaste".toList,
      "shampoo".toList])]

/-- The loop of `categorize` over the table: the first category one of whose
keywords occurs in `t`, else `"Other"`. -/
def categorizeLoop (t : Str) : List (Str × List Str) → Str
  | [] => "Other".toList
  | (cat, kws) :: rest => if kws.any (fun k => includes t k) then cat else categorizeLoop t rest

/-- The function `categorize`. -/
def categorize (item : Str) : Str := categorizeLoop (toLowerCase item) categoryMap

/-! ## `App.jsx` -/

/-- The assertion `\b` between the character before a position and the one
after it (`none` at either end of the text). -/
def wordBoundary (before after : Option Char) : Bool :=
  (before.map isWordChar).getD false != (after.map isWordChar).getD false

/-- A letter under the flag `i`: the letter itself or its capital. -/
def ci (lower upper : Char) : Re := .chr (fun c => c == lower || c == upper)

/-- The part `(\d+)(l|kg|g|ml)` of the pattern of `normalizeName`, flag `i`. -/
def unitRe : Re :=
  .seq (.plus isDigit)
    (Re.alts [ci 'l' 'L', .seq (ci 'k' 'K') (ci 'g' 'G'), ci 'g' 'G', .seq (ci 'm' 'M') (ci 'l' 'L')])

/-- One attempt of `/\b(\d+)(l|kg|g|ml)\b/i` at a position of the text:
`before` is the character in front of the position and `s` the text from it
on.  Returns what follows the match. -/
def matchUnitAt (before : Option Char) (s : Str) : Option Str :=
  if wordBoundary before s.head? then
    ((unitRe.run s {}).find?
      (fun x => wordBoundary (s.take (s.length - x.1.length)).getLast? x.1.head?)).map
      (fun x => x.1)
  else none

/-- The call `replace(/\b(\d+)(l|kg|g|ml)\b/gi, "")`, scanning left to
right.  `skip` counts the characters of a match still to be dropped and
`before` is the character in front of the current position. -/
def stripUnits : Nat → Option Char → Str → Str
  | _, _, [] => []
  | skip + 1, _, x :: xs => stripUnits skip (some x) xs
  | 0, before, x :: xs =>
    match matchUnitAt before (x :: xs) with
    | some rest => stripUnits ((x :: xs).length - rest.length - 1) (some x) xs
    | none => x :: stripUnits 0 (some x) xs

/-- The function `normalizeName`. -/
def normalizeName (name : Str) : Str := trim (stripUnits 0 none name)

/-- An entry of the shopping list. -/
structure Entry where
  name : Str
  qty : Int
  category : Str
  deriving DecidableEq, Repr

/-- The test `i.name.toLowerCase() === name.toLowerCase()`. -/
def sameName (name : Str) (i : Entry) : Bool := toLowerCase i.name == toLowerCase name

/-- The method `Array.prototype.findIndex`; `none` is `-1`. -/
def findIndex {α : Type} (p : α → Bool) : List α → Option Nat
  | [] => none
  | x :: xs => if p x then some 0 else (findIndex p xs).map (fun i => i + 1)

/-- The list update of `addItem` (the function given to `setList`).  The
source copies the array and adds to the `qty` field of the entry found; here
that entry is replaced by one with the new quantity. -/
def addItem (prev : List Entry) (rawName : Str) (qty : Int) : List Entry :=
  let name := normalizeName rawName
  let category := categorize name
  match findIndex (sameName name) prev with
  | some idx => List.modify (fun e => { e with qty := e.qty + qty }) idx prev
  | none => prev ++ [{ name := name, qty := qty, category := category }]

/-- The list update of `removeItem`. -/
def removeItem (prev : List Entry) (rawName : Str) : List Entry :=
  let name := normalizeName rawName
  prev.filter (fun i => !(sameName name i))

/-- The list update of `modifyItem`. -/
def modifyItem (prev : List Entry) (rawName : Str) (qty : Int) : List Entry :=
  let name := normalizeName rawName
  match findIndex (sameName name) prev with
  | some idx => List.modify (fun e => { e with qty := qty }) idx prev
  | none => prev

/-- The expression `x || 1` on a number: zero is falsy. -/
def orOne (x : Int) : Int := if x = 0 then 1 else x

/-- The direct quantity edit of a list row (the `onChange` of the quantity
input): the value typed is read by `parseInt(value || "1", 10) || 1` and
written to the entry at `idx`, an index of the rendered list. -/
def editQty (prev : List Entry) (idx : Nat) (value : Str) : List Entry :=
  let v : Int := match parseInt10 (if value = [] then "1".toList else value) with
    | some n => orOne n
    | none => 1
  List.modify (fun e => { e with qty := v }) idx prev

/-- A number in a template string: decimal digits, with a sign when negative.
This is what the code prints for an integer below `10^21` in size; from there
on a template string prints the exponent form of the double. -/
def numToString (n : Int) : Str :=
  if n < 0 then '-' :: Nat.toDigits 10 n.natAbs else Nat.toDigits 10 n.toNat

/-- The severity tag of a status message. -/
inductive Severity where
  | ok
  | bad
  deriving DecidableEq, Repr

/-- The status message `listMsg`. -/
structure Msg where
  type : Severity
  text : Str
  deriving DecidableEq, Repr

/-- A product of the catalog (`data/catalog.json`, which is data outside the
source files: the catalog is a parameter wherever it is used). -/
structure Product where
  name : Str
  brand : Str
  price : Rat
  deriving DecidableEq

/-- The state of the component `App` that the handlers below change. -/
structure AppState where
  list : List Entry := []
  listMsg : Option Msg := none
  searchResults : List Product := []
  history : List Str := []
  deriving DecidableEq

namespace App

/-- The function `addItem`: list update, history update and status message. -/
def addItem (s : AppState) (rawName : Str) (qty : Int) : AppState :=
  let name := normalizeName rawName
  { s with
    list := Shop.addItem s.list rawName qty
    history := (name :: s.history).take 200
    listMsg := some ⟨.ok, "Added ".toList ++ numToString qty ++ " × ".toList ++ name ++ ".".toList⟩ }

/-- The function `removeItem`: list update and status message. -/
def removeItem (s : AppState) (rawName : Str) : AppState :=
  let name := normalizeName rawName
  { s with
    list := Shop.removeItem s.list rawName
    listMsg := some ⟨.ok, "Removed ".toList ++ name ++ ".".toList⟩ }

/-- The function `modifyItem`: list update and status message. -/
def modifyItem (s : AppState) (rawName : Str) (qty : Int) : AppState :=
  let name := normalizeName rawName
  { s with
    list := Shop.modifyItem s.list rawName qty
    listMsg := some ⟨.ok, "Set ".toList ++ name ++ " to ".toList ++ numToString qty ++ ".".toList⟩ }

/-- The function `doSearch`: `maxPrice != null` decides whether the price
filter runs, `maxPrice ? ... : ""` whether the message names the price. -/
def doSearch (catalog : List Product) (s : AppState) (q : Str) (maxPrice : Option Int) :
    AppState :=
  let ql := toLowerCase q
  let res := catalog.filter
    (fun p => includes (toLowerCase p.name) ql || includes (toLowerCase p.brand) ql)
  let res := match maxPrice with
    | some n => res.filter (fun p => decide (p.price ≤ (n : Rat)))
    | none => res
  let under : Str := match maxPrice with
    | some n => if n = 0 then [] else " under $".toList ++ numToString n
    | none => []
  { s with
    searchResults := res
    listMsg := some ⟨.ok, "Search results for \"".toList ++ q ++ "\"".toList ++ under ++ ".".toList⟩ }

/-- The hint shown for a text that is not a command. -/
def hint : Str :=
  "Didn".toList ++ [Char.ofNat 39] ++
    "t catch that. Try: \"add 2 apples\", \"remove milk\", \"find toothpaste under 5\".".toList

/-- The function `handleText`. -/
def handleText (catalog : List Product) (s : AppState) (text : Str) : AppState :=
  match parseCommand text with
  | .add item qty => addItem s item (orOne qty)
  | .remove item => removeItem s item
  | .modify item qty => modifyItem s item (orOne qty)
  | .search item maxPrice => doSearch catalog s item maxPrice
  | .unknown => { s with listMsg := some ⟨.bad, hint⟩ }

end App

/-- The list `seasonal`. -/
def seasonal : List Str := ["Mangoes".toList, "Brown Bread".toList, "Toothpaste".toList]

/-- The statement `map.set(k, (map.get(k) || 0) + 1)` on a `Map` kept as the
list of its entries in insertion order. -/
def bump (k : Str) : List (Str × Nat) → List (Str × Nat)
  | [] => [(k, 1)]
  | e :: rest => if e.1 = k then (e.1, e.2 + 1) :: rest else e :: bump k rest

/-- The loop `history.forEach(...)` of `freq`: how often each lower-cased name
occurs, in order of first occurrence. -/
def countNames (history : List Str) : List (Str × Nat) :=
  history.foldl (fun m n => bump (toLowerCase n) m) []

/-- Insertion of an entry in front of a list sorted by falling count; the
entry stays in front of those with the same count. -/
def insertDesc (a : Str × Nat) : List (Str × Nat) → List (Str × Nat)
  | [] => [a]
  | b :: rest => if b.2 ≤ a.2 then a :: b :: rest else b :: insertDesc a rest

/-- The call `sort((a, b) => b[1] - a[1])`: by falling count, and stable. -/
def sortDesc : List (Str × Nat) → List (Str × Nat)
  | [] => []
  | a :: rest => insertDesc a (sortDesc rest)

/-- The value `freq`: the six most frequent lower-cased names of the history. -/
def freq (history : List Str) : List Str :=
  ((sortDesc (countNames history)).take 6).map (fun e => e.1)

/-- The elements of `new Set(l)` in insertion order: first occurrences. -/
def setOf : List Str → List Str
  | [] => []
  | x :: xs => x :: (setOf xs).filter (fun y => !(y == x))

/-- Upper-casing of one ASCII character: `a`..`z` go to `A`..`Z`, the other
ASCII characters are kept. -/
def toUpperChar (c : Char) : Char :=
  if 97 ≤ c.toNat ∧ c.toNat ≤ 122 then Char.ofNat (c.toNat - 32) else c

/-- The expression `n[0].toUpperCase()` at the head of a name that starts with
`c`.  For an ASCII character it is `toUpperChar`.  For every other character
it is what the case tables of the engine give, which are no part of the
source and are the parameter `up`: it may be another character (`ı` gives
`I`) or several (`ß` gives `SS`). -/
def upperFirst (up : Char → Str) (c : Char) : Str :=
  if c.toNat < 128 then [toUpperChar c] else up c

/-- The expression `n[0].toUpperCase() + n.slice(1)`.  For the empty string
`n[0]` is `undefined` and the call throws a `TypeError`: `none`. -/
def capitalize (up : Char → Str) : Str → Option Str
  | [] => none
  | c :: rest => some (upperFirst up c ++ rest)

/-- The call `.map(n => n[0].toUpperCase() + n.slice(1))`; `none` when it
throws. -/
def capitalizeAll (up : Char → Str) : List Str → Option (List Str)
  | [] => some []
  | n :: rest =>
    match capitalize up n with
    | none => none
    | some c => (capitalizeAll up rest).map (fun cs => c :: cs)

/-- The value `suggestions`, recomputed at each render from the history;
`none` when the computation throws. -/
def suggestions (up : Char → Str) (history : List Str) : Option (List Str) :=
  capitalizeAll up (setOf (freq history ++ seasonal.map toLowerCase))

/-- One utterance handled by the rendered component: `handleText` runs, then
the component renders again and recomputes the suggestions from the new
history; `none` when that throws. -/
def dispatchUtterance (up : Char → Str) (catalog : List Product) (s : AppState)
    (text : Str) : Option AppState :=
  let s2 := App.handleText catalog s text
  match suggestions up s2.history with
  | some _ => some s2
  | none => none

/-- A sequence of utterances, from a state on; `none` as soon as a step
throws. -/
def dispatchAll (up : Char → Str) (catalog : List Product) :
    AppState → List Str → Option AppState
  | s, [] => some s
  | s, text :: rest =>
    match dispatchUtterance up catalog s text with
    | some s2 => dispatchAll up catalog s2 rest
    | none => none

/-- The operations that change the list, with any arguments. -/
inductive ListOp where
  | add (rawName : Str) (qty : Int)
  | remove (rawName : Str)
  | modify (rawName : Str) (qty : Int)
  | edit (idx : Nat) (value : Str)

/-- The list after an operation. -/
def ListOp.apply (l : List Entry) : ListOp → List Entry
  | .add rawName qty => addItem l rawName qty
  | .remove rawName => removeItem l rawName
  | .modify rawName qty => modifyItem l rawName qty
  | .edit idx value => editQty l idx value

/-- The events of the page that reach the list through the voice commands,
the suggestion pills and the `+1` and `-1` buttons of a row. -/
inductive UiEvent where
  | utterance (text : Str)
  | suggestion (name : Str)
  | plusOne (idx : Nat)
  | minusOne (idx : Nat)

/-- The state after an event.  A suggestion click is `addItem(s, 1)`; the
buttons of the row `idx` are `modifyItem(it.name, it.qty + 1)` and
`modifyItem(it.name, Math.max(1, it.qty - 1))`, and exist for rendered rows
only. -/
def UiEvent.apply (catalog : List Product) (s : AppState) : UiEvent → AppState
  | .utterance text => App.handleText catalog s text
  | .suggestion name => App.addItem s name 1
  | .plusOne idx =>
    match s.list.get? idx with
    | some it => App.modifyItem s it.name (it.qty + 1)
    | none => s
  | .minusOne idx =>
    match s.list.get? idx with
    | some it => App.modifyItem s it.name (max 1 (it.qty - 1))
    | none => s

/-! ## Notions used in the statements -/

/-- The value of a named group. -/
def Caps.get (c : Caps) : Group → Option Str
  | .item => c.item
  | .max => c.max
  | .qty => c.qty

/-- Every capture is a substring of the text `t`. -/
def Caps.Within (t : Str) (c : Caps) : Prop := ∀ g m, c.get g = some m → m <:+: t

/-- Every `qty` group of a pattern wraps the pattern `q`. -/
def Re.QtyGroups (q : Re) : Re → Prop
  | .grp .qty a => a = q
  | .grp _ a => Re.QtyGroups q a
  | .seq a b => Re.QtyGroups q a ∧ Re.QtyGroups q b
  | .alt a b => Re.QtyGroups q a ∧ Re.QtyGroups q b
  | .opt a => Re.QtyGroups q a
  | _ => True

/-- A text with no white space at either end (the empty text included). -/
def Tight (m : Str) : Prop :=
  (∀ c, m.head? = some c → isWhiteSpace c = false) ∧
  (∀ c, m.getLast? = some c → isWhiteSpace c = false)

/-- The verbs a command can begin with, as the patterns of `parseCommand`
spell them. -/
def commandVerbs : List Str :=
  ["find".toList, "search".toList, "look for".toList, "add".toList, "buy".toList,
   "i need".toList, "i want to buy".toList, "put".toList, "include".toList,
   "remove".toList, "delete".toList, "take off".toList, "take out".toList,
   "change".toList, "set".toList, "update".toList]

/-- The number a quantity token denotes: a non-empty run of decimal digits
denotes its base-10 value, and the words one..ten denote 1..10. -/
def qtyValue (q : Str) : Option Int :=
  if q ≠ [] ∧ q.all isDigit = true then some (digitsValue 0 q : Int) else numberWords.lookup q

/-- The item phrase of a command, when it has one. -/
def Command.item? : Command → Option Str
  | .search item _ => some item
  | .add item _ => some item
  | .remove item => some item
  | .modify item _ => some item
  | .unknown => none

/-- The quantity of an add or modify command. -/
def Command.qty? : Command → Option Int
  | .add _ qty => some qty
  | .modify _ qty => some qty
  | _ => none

/-- A case table that upper-cases the dotless `ı` (U+0131) to `I`, as
`String.prototype.toUpperCase` does, and keeps the other characters. -/
def upDotless (c : Char) : Str := if c.toNat = 0x131 then ['I'] else [c]

/-- At most one entry per case-insensitive name: the lower-cased names of
the entries are pairwise different. -/
def DistinctNames (l : List Entry) : Prop := (l.map (fun e => toLowerCase e.name)).Nodup

/-! ## Lemmas on the string built-ins -/

theorem dropLit_eq_some {w s r : Str} : dropLit w s = some r ↔ s = w ++ r := by
  induction w generalizing s with
  | nil => simp [dropLit, eq_comm]
  | cons a w ih =>
    cases s with
    | nil => simp [dropLit]
    | cons b s =>
      by_cases hab : a = b
      · subst hab
        simp [dropLit, ih]
      · have hba : ¬ b = a := fun h => hab h.symm
        simp [dropLit, hab, hba]

theorem dropLit_append (w s : Str) : dropLit w (w ++ s) = some s :=
  dropLit_eq_some.mpr rfl

theorem dropLit_isSome {w s : Str} : (dropLit w s).isSome = true ↔ w <+: s := by
  constructor
  · intro h
    obtain ⟨r, hr⟩ := Option.isSome_iff_exists.mp h
    exact ⟨r, (dropLit_eq_some.mp hr).symm⟩
  · rintro ⟨r, rfl⟩
    simp [dropLit_append]

theorem includes_iff {t k : Str} : includes t k = true ↔ k <:+: t := by
  induction t with
  | nil =>
    simp only [includes, dropLit_isSome]
    constructor
    · intro h
      exact h.isInfix
    · intro h
      have hk : k = [] := List.eq_nil_of_infix_nil h
      subst hk
      exact List.prefix_refl _
  | cons x xs ih =>
    simp only [includes, Bool.or_eq_true, dropLit_isSome, ih]
    rw [List.infix_cons_iff]

/-! ## Lemmas on `categorize` -/

theorem categorizeLoop_first (t : Str) (pre : List (Str × List Str)) (e : Str × List Str)
    (post : List (Str × List Str))
    (hpre : ∀ x ∈ pre, ∀ k ∈ x.2, ¬ k <:+: t) (he : ∃ k ∈ e.2, k <:+: t) :
    categorizeLoop t (pre ++ e :: post) = e.1 := by
  induction pre with
  | nil =>
    obtain ⟨k, hk, hkt⟩ := he
    have : (e.2.any fun k => includes t k) = true :=
      List.any_eq_true.mpr ⟨k, hk, includes_iff.mpr hkt⟩
    obtain ⟨cat, kws⟩ := e
    simp only [List.nil_append, categorizeLoop]
    rw [if_pos this]
  | cons x pre ih =>
    obtain ⟨cat, kws⟩ := x
    have hx : (kws.any fun k => includes t k) = false := by
      rw [Bool.eq_false_iff]
      intro h
      obtain ⟨k, hk, hkt⟩ := List.any_eq_true.mp h
      exact hpre (cat, kws) (List.mem_cons_self _ _) k hk (includes_iff.mp hkt)
    simp only [List.cons_append, categorizeLoop, hx]
    exact ih (fun y hy => hpre y (List.mem_cons_of_mem _ hy))

theorem categorizeLoop_other (t : Str) (m : List (Str × List Str))
    (hm : ∀ e ∈ m, e.1 ≠ "Other".toList) :
    categorizeLoop t m = "Other".toList ↔ ∀ e ∈ m, ∀ k ∈ e.2, ¬ k <:+: t := by
  induction m with
  | nil => simp [categorizeLoop]
  | cons x m ih =>
    obtain ⟨cat, kws⟩ := x
    have ih2 := ih (fun e he => hm e (List.mem_cons_of_mem _ he))
    have hcat : cat ≠ "Other".toList := hm (cat, kws) (List.mem_cons_self _ _)
    by_cases hx : (kws.any fun k => includes t k) = true
    · simp only [categorizeLoop, hx, if_true]
      constructor
      · intro h
        exact absurd h hcat
      · intro h
        obtain ⟨k, hk, hkt⟩ := List.any_eq_true.mp hx
        exact absurd (includes_iff.mp hkt) (h (cat, kws) (List.mem_cons_self _ _) k hk)
    · simp only [categorizeLoop, hx, Bool.false_eq_true, if_false, ih2, List.mem_cons,
        forall_eq_or_imp]
      constructor
      · intro h
        refine ⟨?_, h⟩
        intro k hk hkt
        exact hx (List.any_eq_true.mpr ⟨k, hk, includes_iff.mpr hkt⟩)
      · intro h
        exact h.2

/-! ## Lemmas on the list engine -/

theorem findIndex_eq_none {α : Type} (p : α → Bool) (l : List α) :
    findIndex p l = none ↔ ∀ x ∈ l, p x = false := by
  induction l with
  | nil => simp [findIndex]
  | cons x xs ih =>
    by_cases hx : p x = true
    · simp [findIndex, hx]
    · simp [findIndex, hx, ih]

theorem findIndex_first {α : Type} (p : α → Bool) (l : List α) (h : ∃ x ∈ l, p x = true) :
    ∃ pre e post, l = pre ++ e :: post ∧ (∀ x ∈ pre, p x = false) ∧ p e = true ∧
      findIndex p l = some pre.length := by
  induction l with
  | nil => simp at h
  | cons x xs ih =>
    by_cases hx : p x = true
    · exact ⟨[], x, xs, rfl, by simp, hx, by simp [findIndex, hx]⟩
    · have h2 : ∃ y ∈ xs, p y = true := by
        obtain ⟨y, hy, hpy⟩ := h
        rcases List.mem_cons.mp hy with rfl | hy
        · exact absurd hpy hx
        · exact ⟨y, hy, hpy⟩
      obtain ⟨pre, e, post, hl, hpre, he, hidx⟩ := ih h2
      refine ⟨x :: pre, e, post, by rw [hl]; rfl, ?_, he, ?_⟩
      · intro y hy
        rcases List.mem_cons.mp hy with rfl | hy
        · simpa using hx
        · exact hpre y hy
      · simp [findIndex, hx, hidx]

theorem modify_length_append {α : Type} (f : α → α) (pre : List α) (e : α) (post : List α) :
    List.modify f pre.length (pre ++ e :: post) = pre ++ f e :: post := by
  induction pre with
  | nil => rfl
  | cons x pre ih => simpa [List.modify] using ih

/-! ## Lemmas on the matcher: what any match looks like -/

theorem mem_greedyRests {p : Char → Bool} {s r : Str} (h : r ∈ greedyRests p s) :
    ∃ a, s = a ++ r ∧ ∀ ch ∈ a, p ch = true := by
  induction s with
  | nil =>
    simp only [greedyRests, List.mem_singleton] at h
    exact ⟨[], by simp [h], by simp⟩
  | cons x xs ih =>
    by_cases hx : p x = true
    · simp only [greedyRests, hx, if_true, List.mem_append, List.mem_singleton] at h
      rcases h with h | h
      · obtain ⟨a, ha, hall⟩ := ih h
        refine ⟨x :: a, by rw [ha]; rfl, ?_⟩
        intro ch hch
        rcases List.mem_cons.mp hch with rfl | hch
        · exact hx
        · exact hall ch hch
      · exact ⟨[], by simp [h], by simp⟩
    · simp only [greedyRests, hx, Bool.false_eq_true, if_false, List.mem_singleton] at h
      exact ⟨[], by simp [h], by simp⟩

theorem mem_lazyRests {p : Char → Bool} {s r : Str} (h : r ∈ lazyRests p s) :
    ∃ a, s = a ++ r ∧ ∀ ch ∈ a, p ch = true := by
  induction s with
  | nil =>
    simp only [lazyRests, List.mem_singleton] at h
    exact ⟨[], by simp [h], by simp⟩
  | cons x xs ih =>
    simp only [lazyRests, List.mem_cons] at h
    rcases h with h | h
    · exact ⟨[], by simp [h], by simp⟩
    · by_cases hx : p x = true
      · simp only [hx, if_true] at h
        obtain ⟨a, ha, hall⟩ := ih h
        refine ⟨x :: a, by rw [ha]; rfl, ?_⟩
        intro ch hch
        rcases List.mem_cons.mp hch with rfl | hch
        · exact hx
        · exact hall ch hch
      · simp [hx] at h

/-- Every match consumes a stretch at the start of the text: what is left is
the text without what was consumed. -/
theorem run_consumes (r : Re) : ∀ (s : Str) (c : Caps) (x : Str × Caps),
    x ∈ r.run s c → ∃ m, s = m ++ x.1 := by
  induction r with
  | lit w =>
    intro s c x hx
    simp only [Re.run] at hx
    split at hx
    · rename_i rest hrest
      simp only [List.mem_singleton] at hx
      subst hx
      exact ⟨w, dropLit_eq_some.mp hrest⟩
    · simp at hx
  | chr p =>
    intro s c x hx
    cases s with
    | nil => simp [Re.run] at hx
    | cons y ys =>
      by_cases hy : p y = true
      · simp only [Re.run, hy, if_true, List.mem_singleton] at hx
        subst hx
        exact ⟨[y], rfl⟩
      · simp [Re.run, hy] at hx
  | seq a b iha ihb =>
    intro s c x hx
    simp only [Re.run, List.mem_flatMap] at hx
    obtain ⟨y, hy, hxy⟩ := hx
    obtain ⟨m1, h1⟩ := iha s c y hy
    obtain ⟨m2, h2⟩ := ihb y.1 y.2 x hxy
    exact ⟨m1 ++ m2, by rw [h1, h2, List.append_assoc]⟩
  | alt a b iha ihb =>
    intro s c x hx
    simp only [Re.run, List.mem_append] at hx
    rcases hx with hx | hx
    · exact iha s c x hx
    · exact ihb s c x hx
  | opt a iha =>
    intro s c x hx
    simp only [Re.run, List.mem_append, List.mem_singleton] at hx
    rcases hx with hx | hx
    · exact iha s c x hx
    · subst hx
      exact ⟨[], rfl⟩
  | plus p =>
    intro s c x hx
    cases s with
    | nil => simp [Re.run] at hx
    | cons y ys =>
      by_cases hy : p y = true
      · simp only [Re.run, hy, if_true, List.mem_map] at hx
        obtain ⟨r, hr, rfl⟩ := hx
        obtain ⟨a, ha, -⟩ := mem_greedyRests hr
        exact ⟨y :: a, by rw [ha]; rfl⟩
      · simp [Re.run, hy] at hx
  | star p =>
    intro s c x hx
    simp only [Re.run, List.mem_map] at hx
    obtain ⟨r, hr, rfl⟩ := hx
    obtain ⟨a, ha, -⟩ := mem_greedyRests hr
    exact ⟨a, ha⟩
  | plusLazy p =>
    intro s c x hx
    cases s with
    | nil => simp [Re.run] at hx
    | cons y ys =>
      by_cases hy : p y = true
      · simp only [Re.run, hy, if_true, List.mem_map] at hx
        obtain ⟨r, hr, rfl⟩ := hx
        obtain ⟨a, ha, -⟩ := mem_lazyRests hr
        exact ⟨y :: a, by rw [ha]; rfl⟩
      · simp [Re.run, hy] at hx
  | grp g a iha =>
    intro s c x hx
    simp only [Re.run, List.mem_map] at hx
    obtain ⟨y, hy, rfl⟩ := hx
    exact iha s c y hy
  | eoi =>
    intro s c x hx
    by_cases hs : s = []
    · simp only [Re.run, hs, if_true, List.mem_singleton] at hx
      subst hx
      exact ⟨[], by simp [hs]⟩
    · simp [Re.run, hs] at hx

/-- The text a group captures, `s.take (s.length - rest.length)`, is what was
consumed. -/
theorem take_consumed (m rest : Str) :
    (m ++ rest).take ((m ++ rest).length - rest.length) = m := by
  simp

theorem Caps.get_set (c : Caps) (g h : Group) (m : Str) :
    (c.set g m).get h = if h = g then some m else c.get h := by
  cases g <;> cases h <;> rfl

theorem Caps.Within_empty (t : Str) : Caps.Within t {} := by
  intro g m h
  cases g <;> simp [Caps.get] at h

/-- A match captures only substrings of the text: when the match starts at a
suffix `s` of `t` with all captures within `t`, its captures are within `t`. -/
theorem run_captures_within (t : Str) (r : Re) : ∀ (s : Str) (c : Caps),
    s <:+ t → c.Within t → ∀ x ∈ r.run s c, x.2.Within t := by
  induction r with
  | lit w =>
    intro s c hs hc x hx
    simp only [Re.run] at hx
    split at hx
    · simp only [List.mem_singleton] at hx
      subst hx
      exact hc
    · simp at hx
  | chr p =>
    intro s c hs hc x hx
    cases s with
    | nil => simp [Re.run] at hx
    | cons y ys =>
      by_cases hy : p y = true
      · simp only [Re.run, hy, if_true, List.mem_singleton] at hx
        subst hx
        exact hc
      · simp [Re.run, hy] at hx
  | seq a b iha ihb =>
    intro s c hs hc x hx
    simp only [Re.run, List.mem_flatMap] at hx
    obtain ⟨y, hy, hxy⟩ := hx
    obtain ⟨m1, h1⟩ := run_consumes a s c y hy
    have hy1 : y.1 <:+ t := List.IsSuffix.trans ⟨m1, h1.symm⟩ hs
    exact ihb y.1 y.2 hy1 (iha s c hs hc y hy) x hxy
  | alt a b iha ihb =>
    intro s c hs hc x hx
    simp only [Re.run, List.mem_append] at hx
    rcases hx with hx | hx
    · exact iha s c hs hc x hx
    · exact ihb s c hs hc x hx
  | opt a iha =>
    intro s c hs hc x hx
    simp only [Re.run, List.mem_append, List.mem_singleton] at hx
    rcases hx with hx | hx
    · exact iha s c hs hc x hx
    · subst hx
      exact hc
  | plus p =>
    intro s c hs hc x hx
    cases s with
    | nil => simp [Re.run] at hx
    | cons y ys =>
      by_cases hy : p y = true
      · simp only [Re.run, hy, if_true, List.mem_map] at hx
        obtain ⟨r, -, rfl⟩ := hx
        exact hc
      · simp [Re.run, hy] at hx
  | star p =>
    intro s c hs hc x hx
    simp only [Re.run, List.mem_map] at hx
    obtain ⟨r, -, rfl⟩ := hx
    exact hc
  | plusLazy p =>
    intro s c hs hc x hx
    cases s with
    | nil => simp [Re.run] at hx
    | cons y ys =>
      by_cases hy : p y = true
      · simp only [Re.run, hy, if_true, List.mem_map] at hx
        obtain ⟨r, -, rfl⟩ := hx
        exact hc
      · simp [Re.run, hy] at hx
  | grp g a iha =>
    intro s c hs hc x hx
    simp only [Re.run, List.mem_map] at hx
    obtain ⟨y, hy, rfl⟩ := hx
    intro h m hm
    rw [Caps.get_set] at hm
    split at hm
    · simp only [Option.some.injEq] at hm
      subst hm
      exact List.IsInfix.trans (List.take_prefix _ s).isInfix hs.isInfix
    · exact iha s c hs hc y hy h m hm
  | eoi =>
    intro s c hs hc x hx
    by_cases hs2 : s = []
    · simp only [Re.run, hs2, if_true, List.mem_singleton] at hx
      subst hx
      exact hc
    · simp [Re.run, hs2] at hx

/-! ## Lemmas on lower-casing and trimming -/

theorem toNat_ofNat_small (n : Nat) (h : n < 0xd800) : (Char.ofNat n).toNat = n := by
  have hv : n.isValidChar := Or.inl h
  unfold Char.ofNat
  rw [dif_pos hv]
  simp [Char.ofNatAux, Char.toNat, UInt32.toNat]

theorem toLowerChar_toNat (c : Char) :
    (toLowerChar c).toNat = if 65 ≤ c.toNat ∧ c.toNat ≤ 90 then c.toNat + 32 else c.toNat := by
  unfold toLowerChar
  split
  · rename_i h
    exact toNat_ofNat_small _ (by omega)
  · rfl

theorem toLowerChar_of_not_upper {c : Char} (h : ¬ (65 ≤ c.toNat ∧ c.toNat ≤ 90)) :
    toLowerChar c = c := by
  unfold toLowerChar
  rw [if_neg h]

theorem toLowerChar_idem (c : Char) : toLowerChar (toLowerChar c) = toLowerChar c := by
  have h := toLowerChar_toNat c
  have h2 : ¬ (65 ≤ (toLowerChar c).toNat ∧ (toLowerChar c).toNat ≤ 90) := by
    rw [h]
    split <;> omega
  exact toLowerChar_of_not_upper h2

theorem toLowerChar_whiteSpace {c : Char} (h : isWhiteSpace c = true) : toLowerChar c = c := by
  apply toLowerChar_of_not_upper
  intro hc
  simp only [isWhiteSpace, Bool.or_eq_true, beq_iff_eq, Bool.and_eq_true, decide_eq_true_eq] at h
  omega

theorem toLowerCase_append (a b : Str) : toLowerCase (a ++ b) = toLowerCase a ++ toLowerCase b := by
  simp [toLowerCase]

theorem toLowerCase_idem (s : Str) : toLowerCase (toLowerCase s) = toLowerCase s := by
  simp [toLowerCase, toLowerChar_idem]

theorem toLowerCase_fixed {s : Str} (h : ∀ ch ∈ s, toLowerChar ch = ch) : toLowerCase s = s := by
  induction s with
  | nil => rfl
  | cons x xs ih =>
    simp only [toLowerCase, List.map_cons, List.cons.injEq]
    exact ⟨h x (List.mem_cons_self _ _), ih (fun ch hch => h ch (List.mem_cons_of_mem _ hch))⟩

theorem dropWhile_append_all {p : Char → Bool} {l : Str} (m : Str) (hl : ∀ ch ∈ l, p ch = true) :
    (l ++ m).dropWhile p = m.dropWhile p := by
  induction l with
  | nil => rfl
  | cons x xs ih =>
    have hx : p x = true := hl x (List.mem_cons_self _ _)
    simp only [List.cons_append, List.dropWhile_cons, hx, if_true]
    exact ih (fun ch hch => hl ch (List.mem_cons_of_mem _ hch))

theorem dropWhile_of_head {p : Char → Bool} {m : Str}
    (hm : ∀ c, m.head? = some c → p c = false) : m.dropWhile p = m := by
  cases m with
  | nil => rfl
  | cons x xs =>
    have hx : p x = false := hm x rfl
    simp [List.dropWhile_cons, hx]

theorem trimStart_sub (s : Str) : ∀ ch ∈ trimStart s, ch ∈ s :=
  fun _ h => (List.dropWhile_suffix isWhiteSpace).subset h

theorem trimEnd_sub (s : Str) : ∀ ch ∈ trimEnd s, ch ∈ s := by
  intro ch h
  unfold trimEnd at h
  rw [List.mem_reverse] at h
  exact List.mem_reverse.mp ((List.dropWhile_suffix isWhiteSpace).subset h)

theorem trim_sub (s : Str) : ∀ ch ∈ trim s, ch ∈ s :=
  fun ch h => trimStart_sub s ch (trimEnd_sub _ ch h)

theorem trimEnd_append_all (m : Str) {r : Str} (hr : ∀ ch ∈ r, isWhiteSpace ch = true) :
    trimEnd (m ++ r) = trimEnd m := by
  unfold trimEnd
  rw [List.reverse_append, dropWhile_append_all]
  intro ch hch
  exact hr ch (List.mem_reverse.mp hch)

theorem trimEnd_of_last {m : Str} (hm : ∀ c, m.getLast? = some c → isWhiteSpace c = false) :
    trimEnd m = m := by
  unfold trimEnd
  rw [dropWhile_of_head, List.reverse_reverse]
  intro c hc
  apply hm
  rw [← hc, List.head?_reverse]

/-- What `trim` returns: the one tight text between two runs of white space. -/
theorem trim_unique {l m r : Str} (hl : ∀ ch ∈ l, isWhiteSpace ch = true)
    (hr : ∀ ch ∈ r, isWhiteSpace ch = true) (hm : Tight m) : trim (l ++ m ++ r) = m := by
  unfold trim trimStart
  rw [List.append_assoc, dropWhile_append_all _ hl]
  cases m with
  | nil =>
    have : ([] ++ r).dropWhile isWhiteSpace = [] := by
      rw [List.nil_append, List.dropWhile_eq_nil_iff]
      exact hr
    rw [this]
    rfl
  | cons x xs =>
    have hx : isWhiteSpace x = false := hm.1 x rfl
    rw [List.cons_append, List.dropWhile_cons_of_neg (by simp [hx]), ← List.cons_append,
      trimEnd_append_all _ hr, trimEnd_of_last hm.2]

theorem trim_tight {m : Str} (hm : Tight m) : trim m = m := by
  have := trim_unique (l := []) (r := []) (by simp) (by simp) hm
  simpa using this

theorem head_dropWhile_not (p : Char → Bool) (s : Str) :
    ∀ c, (s.dropWhile p).head? = some c → p c = false := by
  induction s with
  | nil => simp
  | cons x xs ih =>
    intro c hc
    by_cases hx : p x = true
    · rw [List.dropWhile_cons, if_pos hx] at hc
      exact ih c hc
    · rw [List.dropWhile_cons_of_neg hx] at hc
      simp only [List.head?_cons, Option.some.injEq] at hc
      subst hc
      simpa using hx

/-- The shape of any text around its trimmed form. -/
theorem trim_decomp (s : Str) : ∃ l r, s = l ++ trim s ++ r ∧
    (∀ ch ∈ l, isWhiteSpace ch = true) ∧ (∀ ch ∈ r, isWhiteSpace ch = true) ∧ Tight (trim s) := by
  set u := s.dropWhile isWhiteSpace with hu
  set v := u.reverse.dropWhile isWhiteSpace with hv
  have h1 : s = s.takeWhile isWhiteSpace ++ u := (List.takeWhile_append_dropWhile _ _).symm
  have h2 : u.reverse = u.reverse.takeWhile isWhiteSpace ++ v :=
    (List.takeWhile_append_dropWhile _ _).symm
  have h3 : u = v.reverse ++ (u.reverse.takeWhile isWhiteSpace).reverse := by
    rw [← List.reverse_append, ← h2, List.reverse_reverse]
  have htrim : trim s = v.reverse := rfl
  refine ⟨s.takeWhile isWhiteSpace, (u.reverse.takeWhile isWhiteSpace).reverse, ?_, ?_, ?_, ?_⟩
  · rw [htrim, List.append_assoc, ← h3]
    exact h1
  · intro ch hch
    exact (List.mem_takeWhile_imp hch)
  · intro ch hch
    exact (List.mem_takeWhile_imp (List.mem_reverse.mp hch))
  · rw [htrim]
    constructor
    · intro c hc
      have hne : v.reverse ≠ [] := by
        intro h
        rw [h] at hc
        simp at hc
      have : u.head? = some c := by
        rw [h3, List.head?_append_of_ne_nil _ hne]
        exact hc
      exact head_dropWhile_not isWhiteSpace s c this
    · intro c hc
      rw [List.getLast?_reverse] at hc
      exact head_dropWhile_not isWhiteSpace u.reverse c hc

/-! ## Lemmas on the matcher: the first match -/

theorem head_flatMap {α β : Type} {l : List α} {f : α → List β} {a : α} {b : β}
    (hl : l.head? = some a) (hf : (f a).head? = some b) : (l.flatMap f).head? = some b := by
  cases l with
  | nil => simp at hl
  | cons x xs =>
    simp only [List.head?_cons, Option.some.injEq] at hl
    subst hl
    rw [List.flatMap_cons, List.head?_append, hf]
    rfl

theorem head_greedyRests (p : Char → Bool) (s : Str) :
    (greedyRests p s).head? = some (s.dropWhile p) := by
  induction s with
  | nil => rfl
  | cons x xs ih =>
    by_cases hx : p x = true
    · simp only [greedyRests, hx, if_true, List.head?_append, ih, List.dropWhile_cons]
      rfl
    · simp only [greedyRests, hx, Bool.false_eq_true, if_false, List.head?_cons,
        List.dropWhile_cons_of_neg hx]

theorem run_lit_append (w s : Str) (c : Caps) : (Re.lit w).run (w ++ s) c = [(s, c)] := by
  simp only [Re.run, dropLit_append]

theorem run_lit_nil {w s : Str} (c : Caps) (h : ¬ w <+: s) : (Re.lit w).run s c = [] := by
  simp only [Re.run]
  split
  · rename_i rest hrest
    exact absurd ⟨rest, (dropLit_eq_some.mp hrest).symm⟩ h
  · rfl

theorem run_L_nil {w : String} {s : Str} (c : Caps) (h : ¬ w.toList <+: s) :
    (L w).run s c = [] :=
  run_lit_nil c h

theorem first_seq {a b : Re} {s : Str} {c : Caps} {x y : Str × Caps}
    (ha : (a.run s c).head? = some x) (hb : (b.run x.1 x.2).head? = some y) :
    ((Re.seq a b).run s c).head? = some y := by
  simp only [Re.run]
  exact head_flatMap ha hb

theorem run_seq_nil {a : Re} (b : Re) {s : Str} {c : Caps} (ha : a.run s c = []) :
    (Re.seq a b).run s c = [] := by
  simp only [Re.run, ha, List.flatMap_nil]

theorem first_alt_left {a : Re} (b : Re) {s : Str} {c : Caps} {x : Str × Caps}
    (ha : (a.run s c).head? = some x) : ((Re.alt a b).run s c).head? = some x := by
  simp only [Re.run, List.head?_append, ha]
  rfl

theorem run_alt_right {a : Re} (b : Re) {s : Str} {c : Caps} (ha : a.run s c = []) :
    (Re.alt a b).run s c = b.run s c := by
  simp only [Re.run, ha, List.nil_append]

theorem first_opt {a : Re} {s : Str} {c : Caps} {x : Str × Caps}
    (ha : (a.run s c).head? = some x) : ((Re.opt a).run s c).head? = some x := by
  simp only [Re.run, List.head?_append, ha]
  rfl

theorem run_opt_skip {a : Re} {s : Str} {c : Caps} (ha : a.run s c = []) :
    (Re.opt a).run s c = [(s, c)] := by
  simp only [Re.run, ha, List.nil_append]

theorem first_plus {p : Char → Bool} {x : Char} (xs : Str) (c : Caps) (hx : p x = true) :
    ((Re.plus p).run (x :: xs) c).head? = some (xs.dropWhile p, c) := by
  simp only [Re.run, hx, if_true, List.head?_map, head_greedyRests, Option.map_some']

theorem run_plus_nil {p : Char → Bool} {s : Str} (c : Caps)
    (hs : ∀ x, s.head? = some x → p x = false) : (Re.plus p).run s c = [] := by
  cases s with
  | nil => rfl
  | cons x xs => simp [Re.run, hs x rfl]

theorem first_star (p : Char → Bool) (s : Str) (c : Caps) :
    ((Re.star p).run s c).head? = some (s.dropWhile p, c) := by
  simp only [Re.run, List.head?_map, head_greedyRests, Option.map_some']

theorem first_grp {a : Re} (g : Group) {s : Str} {c : Caps} {x : Str × Caps}
    (ha : (a.run s c).head? = some x) :
    ((Re.grp g a).run s c).head? = some (x.1, x.2.set g (s.take (s.length - x.1.length))) := by
  simp only [Re.run, List.head?_map, ha, Option.map_some']

theorem run_grp_nil {a : Re} (g : Group) {s : Str} {c : Caps} (ha : a.run s c = []) :
    (Re.grp g a).run s c = [] := by
  simp only [Re.run, ha, List.map_nil]

theorem run_eoi_nil (c : Caps) : Re.eoi.run [] c = [([], c)] := by
  simp [Re.run]

theorem exec_of_first {r : Re} {s : Str} {x : Str × Caps}
    (h : (r.run s {}).head? = some x) : r.exec s = some x.2 := by
  simp only [Re.exec, h, Option.map_some']

theorem exec_of_nil {r : Re} {s : Str} (h : r.run s {} = []) : r.exec s = none := by
  simp only [Re.exec, h, List.head?_nil, Option.map_none']

/-- Greedy `c+` followed by the end of input: all of a non-empty text of
class `c` is taken. -/
theorem first_plus_all {p : Char → Bool} {m : Str} (c : Caps) (hne : m ≠ [])
    (hall : ∀ ch ∈ m, p ch = true) : ((Re.plus p).run m c).head? = some ([], c) := by
  cases m with
  | nil => exact absurd rfl hne
  | cons x xs =>
    rw [first_plus xs c (hall x (List.mem_cons_self _ _))]
    have : xs.dropWhile p = [] :=
      List.dropWhile_eq_nil_iff.mpr (fun ch hch => hall ch (List.mem_cons_of_mem _ hch))
    rw [this]

/-- The tail `(?<item>.+)$` of the add and remove patterns on a non-empty
text without line terminators: the item is the whole text. -/
theorem first_item_eoi {m : Str} (c : Caps) (hne : m ≠ [])
    (hall : ∀ ch ∈ m, isDot ch = true) :
    ((Re.seq (.grp .item (.plus isDot)) .eoi).run m c).head? = some ([], c.set .item m) := by
  apply first_seq (first_grp .item (first_plus_all c hne hall))
  simp [run_eoi_nil]

/-! ## Texts that are not commands -/

theorem findRe_nil {t : Str} (h : ¬ "find".toList <+: t) : findRe.run t {} = [] :=
  run_seq_nil _ (run_L_nil _ h)

theorem searchRe_nil {t : Str} (h1 : ¬ "search".toList <+: t) (h2 : ¬ "look for".toList <+: t) :
    searchRe.run t {} = [] := by
  apply run_seq_nil
  show (Re.alt (L "search") (L "look for")).run t {} = []
  rw [run_alt_right _ (run_L_nil _ h1)]
  exact run_L_nil _ h2

theorem addVerbs_nil {t : Str} (h1 : ¬ "add".toList <+: t) (h2 : ¬ "buy".toList <+: t)
    (h3 : ¬ "i need".toList <+: t) (h4 : ¬ "i want to buy".toList <+: t)
    (h5 : ¬ "put".toList <+: t) (h6 : ¬ "include".toList <+: t) :
    (Re.alts [L "add", L "buy", L "i need", L "i want to buy", L "put", L "include"]).run t {}
      = [] := by
  simp only [Re.alts]
  rw [run_alt_right _ (run_L_nil _ h1), run_alt_right _ (run_L_nil _ h2),
    run_alt_right _ (run_L_nil _ h3), run_alt_right _ (run_L_nil _ h4),
    run_alt_right _ (run_L_nil _ h5)]
  exact run_L_nil _ h6

theorem addRe_nil {t : Str} (h1 : ¬ "add".toList <+: t) (h2 : ¬ "buy".toList <+: t)
    (h3 : ¬ "i need".toList <+: t) (h4 : ¬ "i want to buy".toList <+: t)
    (h5 : ¬ "put".toList <+: t) (h6 : ¬ "include".toList <+: t) : addRe.run t {} = [] :=
  run_seq_nil _ (addVerbs_nil h1 h2 h3 h4 h5 h6)

theorem takeOffOut_nil {t : Str} (h1 : ¬ "take off".toList <+: t)
    (h2 : ¬ "take out".toList <+: t) :
    (Re.seq (L "take ") (Re.alts [L "off", L "out"])).run t {} = [] := by
  simp only [Re.run, L, Re.alts]
  split
  · rename_i rest hrest
    have ht := dropLit_eq_some.mp hrest
    have n1 : ¬ "off".toList <+: rest := by
      rintro ⟨r, hr⟩
      exact h1 ⟨r, by rw [ht, ← hr]; rfl⟩
    have n2 : ¬ "out".toList <+: rest := by
      rintro ⟨r, hr⟩
      exact h2 ⟨r, by rw [ht, ← hr]; rfl⟩
    have e1 := run_lit_nil ({} : Caps) n1
    have e2 := run_lit_nil ({} : Caps) n2
    simp only [Re.run] at e1 e2
    simp only [List.flatMap_cons, List.flatMap_nil, List.append_nil, List.append_eq_nil]
    exact ⟨e1, e2⟩
  · simp

theorem removeRe_nil {t : Str} (h1 : ¬ "remove".toList <+: t) (h2 : ¬ "delete".toList <+: t)
    (h3 : ¬ "take off".toList <+: t) (h4 : ¬ "take out".toList <+: t) :
    removeRe.run t {} = [] := by
  apply run_seq_nil
  show (Re.alt (L "remove") (Re.alt (L "delete")
    (Re.seq (L "take ") (Re.alts [L "off", L "out"])))).run t {} = []
  rw [run_alt_right _ (run_L_nil _ h1), run_alt_right _ (run_L_nil _ h2)]
  exact takeOffOut_nil h3 h4

theorem modifyRe_nil {t : Str} (h1 : ¬ "change".toList <+: t) (h2 : ¬ "set".toList <+: t)
    (h3 : ¬ "update".toList <+: t) : modifyRe.run t {} = [] := by
  apply run_seq_nil
  show (Re.alt (L "change") (Re.alt (L "set") (L "update"))).run t {} = []
  rw [run_alt_right _ (run_L_nil _ h1), run_alt_right _ (run_L_nil _ h2)]
  exact run_L_nil _ h3

theorem nounRe_nil {t : Str} (h1 : ¬ "add".toList <+: t) (h2 : ¬ "buy".toList <+: t) :
    nounRe.run t {} = [] := by
  apply run_seq_nil
  show (Re.alt (L "add") (L "buy")).run t {} = []
  rw [run_alt_right _ (run_L_nil _ h1)]
  exact run_L_nil _ h2

/-- The parser on a text none of whose patterns matches. -/
theorem parseCommand_of_no_match {text : Str}
    (h1 : findRe.run (trim (toLowerCase text)) {} = [])
    (h2 : searchRe.run (trim (toLowerCase text)) {} = [])
    (h3 : addRe.run (trim (toLowerCase text)) {} = [])
    (h4 : removeRe.run (trim (toLowerCase text)) {} = [])
    (h5 : modifyRe.run (trim (toLowerCase text)) {} = [])
    (h6 : nounRe.run (trim (toLowerCase text)) {} = []) : parseCommand text = .unknown := by
  unfold parseCommand
  split
  · rfl
  · simp only [exec_of_nil h1, exec_of_nil h2, exec_of_nil h3, exec_of_nil h4, exec_of_nil h5,
      exec_of_nil h6, Option.orElse]

theorem trim_lower_of_blank {text : Str} (h : ∀ ch ∈ text, isWhiteSpace ch = true) :
    trim (toLowerCase text) = [] := by
  have hl : toLowerCase text = text :=
    toLowerCase_fixed (fun ch hch => toLowerChar_whiteSpace (h ch hch))
  rw [hl]
  have := trim_unique (l := text) (m := []) (r := []) h (by simp) ⟨by simp, by simp⟩
  simpa using this

/-! ## Texts made of a verb and an item -/

theorem not_starts_of_head {w s : Str} {a b : Char} (hw : w.head? = some a)
    (hs : s.head? = some b) (hab : a ≠ b) : ¬ w <+: s := by
  rintro ⟨r, rfl⟩
  cases w with
  | nil => simp at hw
  | cons x xs =>
    simp only [List.head?_cons, Option.some.injEq, List.cons_append] at hw hs
    exact hab (hw.symm.trans hs)

/-- The trimmed form of a literal followed by a phrase: the literal, white
space, and the trimmed phrase. -/
theorem trim_lit_phrase (pre X : Str) (hpre : ∃ a rest, pre = a :: rest ∧ isWhiteSpace a = false)
    (hne : trim X ≠ []) :
    ∃ l r, X = l ++ trim X ++ r ∧ (∀ ch ∈ l, isWhiteSpace ch = true) ∧
      trim (pre ++ X) = pre ++ (l ++ trim X) := by
  obtain ⟨l, r, hX, hl, hr, ht⟩ := trim_decomp X
  refine ⟨l, r, hX, hl, ?_⟩
  have hT : Tight (pre ++ (l ++ trim X)) := by
    obtain ⟨a, rest, rfl, ha⟩ := hpre
    constructor
    · intro c hc
      simp only [List.cons_append, List.head?_cons, Option.some.injEq] at hc
      subst hc
      exact ha
    · intro c hc
      rw [← List.append_assoc, List.getLast?_append_of_ne_nil _ hne] at hc
      exact ht.2 c hc
  have := trim_unique (l := []) (m := pre ++ (l ++ trim X)) (r := r) (by simp) hr hT
  rw [← this]
  congr 1
  conv_lhs => rw [hX]
  simp

/-- White space in front of a tight text is all a greedy `\s+` takes. -/
theorem first_plus_ws {a : Char} {l m : Str} (c : Caps) (ha : isWhiteSpace a = true)
    (hl : ∀ ch ∈ l, isWhiteSpace ch = true) (hm : Tight m) :
    ((Re.plus isWhiteSpace).run (a :: (l ++ m)) c).head? = some (m, c) := by
  rw [first_plus _ c ha, dropWhile_append_all _ hl, dropWhile_of_head hm.1]

theorem qtyRe_nil {m : Str} (c : Caps) (hdig : ∀ x ∈ m.head?, isDigit x = false)
    (hword : ∀ w ∈ numberWords, ¬ w.1 <+: m) : qtyRe.run m c = [] := by
  have v := fun (w : Str × Int) (hw : w ∈ numberWords) => hword w hw
  simp only [qtyRe, Re.alts]
  have w1 : ¬ "one".toList <+: m := v ("one".toList, 1) (by decide)
  have w2 : ¬ "two".toList <+: m := v ("two".toList, 2) (by decide)
  have w3 : ¬ "three".toList <+: m := v ("three".toList, 3) (by decide)
  have w4 : ¬ "four".toList <+: m := v ("four".toList, 4) (by decide)
  have w5 : ¬ "five".toList <+: m := v ("five".toList, 5) (by decide)
  have w6 : ¬ "six".toList <+: m := v ("six".toList, 6) (by decide)
  have w7 : ¬ "seven".toList <+: m := v ("seven".toList, 7) (by decide)
  have w8 : ¬ "eight".toList <+: m := v ("eight".toList, 8) (by decide)
  have w9 : ¬ "nine".toList <+: m := v ("nine".toList, 9) (by decide)
  have w10 : ¬ "ten".toList <+: m := v ("ten".toList, 10) (by decide)
  rw [run_alt_right _ (run_plus_nil c hdig),
    run_alt_right _ (run_L_nil c w1),
    run_alt_right _ (run_L_nil c w2),
    run_alt_right _ (run_L_nil c w3),
    run_alt_right _ (run_L_nil c w4),
    run_alt_right _ (run_L_nil c w5),
    run_alt_right _ (run_L_nil c w6),
    run_alt_right _ (run_L_nil c w7),
    run_alt_right _ (run_L_nil c w8),
    run_alt_right _ (run_L_nil c w9)]
  exact run_L_nil c w10

/-- The add pattern after the verb and the white space, on a tight item that
does not start like a quantity: no quantity is captured and the item is the
whole rest. -/
theorem addRe_tail_default {m : Str} (hne : m ≠ []) (ht : Tight m)
    (hdot : ∀ ch ∈ m, isDot ch = true) (hq : qtyRe.run m {} = []) :
    ((Re.seqs [.opt (.grp .qty qtyRe), .star isWhiteSpace, .grp .item (.plus isDot),
      .eoi]).run m {}).head? = some ([], ({} : Caps).set .item m) := by
  simp only [Re.seqs]
  have h1 : ((Re.opt (.grp .qty qtyRe)).run m {}).head? = some (m, {}) := by
    rw [run_opt_skip (run_grp_nil .qty hq)]
    rfl
  apply first_seq h1
  have h2 : ((Re.star isWhiteSpace).run m {}).head? = some (m, {}) := by
    rw [first_star, dropWhile_of_head ht.1]
  apply first_seq h2
  exact first_item_eoi _ hne hdot

theorem itemOf_set_item (c : Caps) {m : Str} (ht : Tight m) : itemOf (c.set .item m) = m := by
  simp only [itemOf, Caps.set, Option.getD_some]
  exact trim_tight ht

theorem isDot_of_not_lineTerminator {m : Str} (h : ∀ ch ∈ m, isLineTerminator ch = false) :
    ∀ ch ∈ m, isDot ch = true := by
  intro ch hch
  simp [isDot, h ch hch]

theorem trim_tight_of (X : Str) : Tight (trim X) :=
  (trim_decomp X).choose_spec.choose_spec.2.2.2

theorem toLowerCase_digits {q : Str} (hq : q.all isDigit = true) : toLowerCase q = q := by
  apply toLowerCase_fixed
  intro ch hch
  apply toLowerChar_of_not_upper
  have := List.all_eq_true.mp hq ch hch
  simp only [isDigit, Bool.and_eq_true, decide_eq_true_eq] at this
  omega

theorem digit_not_whiteSpace {x : Char} (h : isDigit x = true) : isWhiteSpace x = false := by
  simp only [isDigit, Bool.and_eq_true, decide_eq_true_eq] at h
  rw [Bool.eq_false_iff]
  intro hw
  simp only [isWhiteSpace, Bool.or_eq_true, beq_iff_eq, Bool.and_eq_true, decide_eq_true_eq] at hw
  omega

theorem parseInt10_digits {q : Str} (hne : q ≠ []) (hq : q.all isDigit = true) :
    parseInt10 q = some (digitsValue 0 q : Int) := by
  cases q with
  | nil => exact absurd rfl hne
  | cons d ds =>
    have hd : isDigit d = true := List.all_eq_true.mp hq d (List.mem_cons_self _ _)
    have hws : isWhiteSpace d = false := digit_not_whiteSpace hd
    have h1 : ¬ (d = '-') := by
      rintro rfl
      exact absurd hd (by decide)
    have h2 : ¬ (d = '+') := by
      rintro rfl
      exact absurd hd (by decide)
    have htw : (d :: ds).takeWhile isDigit = d :: ds :=
      List.takeWhile_eq_self_iff.mpr (fun x hx => List.all_eq_true.mp hq x hx)
    simp [parseInt10, trimStart, List.dropWhile_cons, hws, h1, h2, htw]

/-- On a quantity token followed by a space, the quantity pattern takes the
token, `toNumber` gives the number it denotes, and the token is lower-case
and starts with no white space. -/
theorem qtyRe_first {q : Str} {v : Int} (hq : qtyValue q = some v) (rest : Str) (c : Caps) :
    (qtyRe.run (q ++ ' ' :: rest) c).head? = some (' ' :: rest, c) ∧
    toNumber (some q) = v ∧ toLowerCase q = q ∧
    (∃ a tl, q = a :: tl ∧ isWhiteSpace a = false) := by
  unfold qtyValue at hq
  split at hq
  · rename_i hd
    obtain ⟨hne, hall⟩ := hd
    simp only [Option.some.injEq] at hq
    cases hq0 : q with
    | nil => exact absurd hq0 hne
    | cons d ds =>
      rw [hq0] at hall hq
      have hd : isDigit d = true := List.all_eq_true.mp hall d (List.mem_cons_self _ _)
      have hds : ∀ ch ∈ ds, isDigit ch = true :=
        fun ch hch => List.all_eq_true.mp hall ch (List.mem_cons_of_mem _ hch)
      refine ⟨?_, ?_, toLowerCase_digits hall, ⟨d, ds, rfl, digit_not_whiteSpace hd⟩⟩
      · simp only [qtyRe, Re.alts]
        apply first_alt_left
        rw [List.cons_append, first_plus _ c hd, dropWhile_append_all _ hds,
          List.dropWhile_cons_of_neg (by decide)]
      · simp only [toNumber]
        rw [if_neg (by simp), parseInt10_digits (by simp) hall]
        exact hq
  · have hmem : (q, v) ∈ numberWords := by
      have := List.lookup_eq_some_iff.mp hq
      obtain ⟨l1, l2, h, -⟩ := this
      rw [h]
      simp
    simp only [numberWords, List.mem_cons, Prod.mk.injEq, List.mem_singleton] at hmem
    simp only [List.not_mem_nil, or_false] at hmem
    rcases hmem with h | h | h | h | h | h | h | h | h | h <;> obtain ⟨rfl, rfl⟩ := h <;>
      exact ⟨rfl, by decide, by decide, ⟨_, _, rfl, by decide⟩⟩

/-! ## What a returned command comes from -/

theorem mem_of_exec {r : Re} {s : Str} {m : Caps} (h : r.exec s = some m) :
    ∃ x ∈ r.run s {}, x.2 = m := by
  unfold Re.exec at h
  cases hr : r.run s {} with
  | nil => simp [hr] at h
  | cons x xs =>
    simp only [hr, List.head?_cons, Option.map_some', Option.some.injEq] at h
    exact ⟨x, List.mem_cons_self _ _, h⟩

/-- The six outcomes of `parseCommand`, each with the match it comes from. -/
theorem parseCommand_cases (text : Str) :
    (∃ m, (findRe.exec (trim (toLowerCase text)) = some m ∨
        searchRe.exec (trim (toLowerCase text)) = some m) ∧
      parseCommand text = .search (itemOf m) (maxPriceOf m)) ∨
    (∃ m, addRe.exec (trim (toLowerCase text)) = some m ∧
      parseCommand text = .add (itemOf m) (toNumber m.qty)) ∨
    (∃ m, removeRe.exec (trim (toLowerCase text)) = some m ∧
      parseCommand text = .remove (itemOf m)) ∨
    (∃ m, modifyRe.exec (trim (toLowerCase text)) = some m ∧
      parseCommand text = .modify (itemOf m) (toNumber m.qty)) ∨
    (∃ m, nounRe.exec (trim (toLowerCase text)) = some m ∧
      parseCommand text = .add (itemOf m) (toNumber m.qty)) ∨
    parseCommand text = .unknown := by
  unfold parseCommand
  by_cases h0 : text = []
  · simp [h0]
  rw [if_neg h0]
  cases h1 : findRe.exec (trim (toLowerCase text)) with
  | some m => exact Or.inl ⟨m, Or.inl rfl, by simp only [h1, Option.orElse]⟩
  | none =>
  cases h2 : searchRe.exec (trim (toLowerCase text)) with
  | some m => exact Or.inl ⟨m, Or.inr rfl, by simp only [h1, h2, Option.orElse]⟩
  | none =>
  cases h3 : addRe.exec (trim (toLowerCase text)) with
  | some m => exact Or.inr (Or.inl ⟨m, rfl, by simp only [h1, h2, h3, Option.orElse]⟩)
  | none =>
  cases h4 : removeRe.exec (trim (toLowerCase text)) with
  | some m =>
    exact Or.inr (Or.inr (Or.inl ⟨m, rfl, by simp only [h1, h2, h3, h4, Option.orElse]⟩))
  | none =>
  cases h5 : modifyRe.exec (trim (toLowerCase text)) with
  | some m =>
    exact Or.inr (Or.inr (Or.inr (Or.inl
      ⟨m, rfl, by simp only [h1, h2, h3, h4, h5, Option.orElse]⟩)))
  | none =>
  cases h6 : nounRe.exec (trim (toLowerCase text)) with
  | some m =>
    exact Or.inr (Or.inr (Or.inr (Or.inr (Or.inl
      ⟨m, rfl, by simp only [h1, h2, h3, h4, h5, h6, Option.orElse]⟩))))
  | none =>
    exact Or.inr (Or.inr (Or.inr (Or.inr (Or.inr
      (by simp only [h1, h2, h3, h4, h5, h6, Option.orElse])))))

theorem mem_run_seq {a b : Re} {s : Str} {c : Caps} {x : Str × Caps}
    (h : x ∈ (Re.seq a b).run s c) : ∃ y ∈ a.run s c, x ∈ b.run y.1 y.2 := by
  simpa only [Re.run, List.mem_flatMap] using h

theorem mem_run_plus {p : Char → Bool} {s : Str} {c : Caps} {x : Str × Caps}
    (h : x ∈ (Re.plus p).run s c) :
    ∃ a, a ≠ [] ∧ (∀ ch ∈ a, p ch = true) ∧ s = a ++ x.1 ∧ x.2 = c := by
  cases s with
  | nil => simp [Re.run] at h
  | cons y ys =>
    by_cases hy : p y = true
    · simp only [Re.run, hy, if_true, List.mem_map] at h
      obtain ⟨r, hr, rfl⟩ := h
      obtain ⟨a, ha, hall⟩ := mem_greedyRests hr
      refine ⟨y :: a, by simp, ?_, by rw [ha]; rfl, rfl⟩
      intro ch hch
      rcases List.mem_cons.mp hch with rfl | hch
      · exact hy
      · exact hall ch hch
    · simp [Re.run, hy] at h

theorem mem_run_lit {w s : Str} {c : Caps} {x : Str × Caps} (h : x ∈ (Re.lit w).run s c) :
    s = w ++ x.1 ∧ x.2 = c := by
  simp only [Re.run] at h
  split at h
  · rename_i rest hrest
    simp only [List.mem_singleton] at h
    subst h
    exact ⟨dropLit_eq_some.mp hrest, rfl⟩
  · simp at h

theorem mem_run_eoi {s : Str} {c : Caps} {x : Str × Caps} (h : x ∈ Re.eoi.run s c) :
    s = [] ∧ x = ([], c) := by
  by_cases hs : s = []
  · simp only [Re.run, hs, if_true, List.mem_singleton] at h
    exact ⟨hs, h⟩
  · simp [Re.run, hs] at h

theorem max_set_item (c : Caps) (m : Str) : (c.set .item m).max = c.max := rfl

theorem max_set_max (c : Caps) (m : Str) : (c.set .max m).max = some m := rfl

/-- A match of the tail of the search patterns that captured a price: the
text ends with " under " and the captured digits. -/
theorem searchTail_max {s : Str} {c : Caps} {x : Str × Caps} {d : Str}
    (hx : x ∈ searchTail.run s c) (hc : c.max = none) (hd : x.2.max = some d) :
    ∃ pre, s = pre ++ (" under ".toList ++ d) ∧ d ≠ [] ∧ d.all isDigit = true := by
  simp only [searchTail, underTail] at hx
  obtain ⟨y, hy, hx⟩ := mem_run_seq hx
  obtain ⟨m1, hm1⟩ := run_consumes _ _ _ _ hy
  have hymax : y.2.max = none := by
    simp only [Re.run, List.mem_map] at hy
    obtain ⟨y0, hy0, rfl⟩ := hy
    have : y0.2 = c := by
      cases s with
      | nil => simp at hy0
      | cons a as =>
        by_cases ha : isDot a = true
        · simp only [ha, if_true, List.mem_map] at hy0
          obtain ⟨r, -, rfl⟩ := hy0
          rfl
        · simp [ha] at hy0
    rw [max_set_item, this, hc]
  obtain ⟨z, hz, hx⟩ := mem_run_seq hx
  obtain ⟨hz1, hxz⟩ := mem_run_eoi hx
  subst hxz
  simp only [Re.run, List.mem_append, List.mem_singleton] at hz
  rcases hz with hz | hz
  · have hz2 : z ∈ (Re.seq (L " under ") (.grp .max (.plus isDigit))).run y.1 y.2 := by
      simpa only [Re.run] using hz
    obtain ⟨w, hw, hz3⟩ := mem_run_seq hz2
    obtain ⟨hw1, hw2⟩ := mem_run_lit hw
    simp only [Re.run, List.mem_map] at hz3
    obtain ⟨u, hu, rfl⟩ := hz3
    have hu2 : u ∈ (Re.plus isDigit).run w.1 w.2 := by
      simpa only [Re.run] using hu
    obtain ⟨a, hane, hall, hwa, -⟩ := mem_run_plus hu2
    simp only at hz1
    rw [hz1, List.append_nil] at hwa
    simp only [max_set_max, Option.some.injEq, hz1, List.length_nil, Nat.sub_zero,
      List.take_length] at hd
    rw [hwa] at hd
    subst hd
    refine ⟨m1, ?_, hane, List.all_eq_true.mpr hall⟩
    rw [hm1, hw1, hwa]
  · subst hz
    simp only at hd
    rw [hymax] at hd
    exact absurd hd (by simp)

theorem findRe_max {t : Str} {x : Str × Caps} {d : Str} (hx : x ∈ findRe.run t {})
    (hd : x.2.max = some d) :
    ∃ pre, t = pre ++ (" under ".toList ++ d) ∧ d ≠ [] ∧ d.all isDigit = true := by
  simp only [findRe, Re.seqs] at hx
  obtain ⟨y1, hy1, hx⟩ := mem_run_seq hx
  obtain ⟨e1, c1⟩ := mem_run_lit hy1
  obtain ⟨y2, hy2, hx⟩ := mem_run_seq hx
  obtain ⟨m2, e2⟩ := run_consumes _ _ _ _ hy2
  have c2 : y2.2 = y1.2 := by
    simp only [Re.run, List.mem_append, List.mem_singleton] at hy2
    rcases hy2 with h | h
    · have h2 : y2 ∈ (L " me").run y1.1 y1.2 := by simpa only [Re.run] using h
      exact (mem_run_lit h2).2
    · rw [h]
  obtain ⟨y3, hy3, hx⟩ := mem_run_seq hx
  obtain ⟨e3, c3⟩ := mem_run_lit hy3
  have hc : y3.2.max = none := by rw [c3, c2, c1]
  obtain ⟨pre, hpre, h1, h2⟩ := searchTail_max hx hc hd
  refine ⟨"find".toList ++ (m2 ++ (" ".toList ++ pre)), ?_, h1, h2⟩
  rw [e1, e2, e3, hpre]
  simp [L]

theorem searchRe_max {t : Str} {x : Str × Caps} {d : Str} (hx : x ∈ searchRe.run t {})
    (hd : x.2.max = some d) :
    ∃ pre, t = pre ++ (" under ".toList ++ d) ∧ d ≠ [] ∧ d.all isDigit = true := by
  simp only [searchRe, Re.seqs, Re.alts] at hx
  obtain ⟨y1, hy1, hx⟩ := mem_run_seq hx
  obtain ⟨m1, e1⟩ := run_consumes _ _ _ _ hy1
  have c1 : y1.2 = {} := by
    simp only [Re.run, List.mem_append] at hy1
    rcases hy1 with h | h
    · have h2 : y1 ∈ (L "search").run t {} := by simpa only [Re.run] using h
      exact (mem_run_lit h2).2
    · have h2 : y1 ∈ (L "look for").run t {} := by simpa only [Re.run] using h
      exact (mem_run_lit h2).2
  obtain ⟨y3, hy3, hx⟩ := mem_run_seq hx
  obtain ⟨e3, c3⟩ := mem_run_lit hy3
  have hc : y3.2.max = none := by rw [c3, c1]
  obtain ⟨pre, hpre, h1, h2⟩ := searchTail_max hx hc hd
  refine ⟨m1 ++ (" ".toList ++ pre), ?_, h1, h2⟩
  rw [e1, e3, hpre]
  simp [L]

/-! ## The search patterns on a text with or without a price clause -/

theorem takeWhile_append_stop {p : Char → Bool} {a : Str} {x : Char} (b : Str)
    (ha : ∀ ch ∈ a, p ch = true) (hx : p x = false) : (a ++ x :: b).takeWhile p = a := by
  induction a with
  | nil => simp [List.takeWhile_cons, hx]
  | cons y ys ih =>
    have hy : p y = true := ha y (List.mem_cons_self _ _)
    simp only [List.cons_append, List.takeWhile_cons, hy, if_true, List.cons.injEq, true_and]
    exact ih (fun ch hch => ha ch (List.mem_cons_of_mem _ hch))

/-- A price clause " under " + digits at the end of a text starts at one
place only. -/
theorem under_unique {d n a2 : Str} (hd : ∀ ch ∈ d, isDigit ch = true)
    (hn : ∀ ch ∈ n, isDigit ch = true)
    (h : " under ".toList ++ d = a2 ++ (" under ".toList ++ n)) : a2 = [] := by
  have hr := congrArg List.reverse h
  simp only [List.reverse_append] at hr
  have hU : " under ".toList.reverse = ' ' :: "rednu ".toList := rfl
  rw [hU, List.append_assoc, List.cons_append] at hr
  have h1 := congrArg (List.takeWhile isDigit) hr
  rw [takeWhile_append_stop _ (fun ch hch => hd ch (List.mem_reverse.mp hch)) (by decide),
    takeWhile_append_stop _ (fun ch hch => hn ch (List.mem_reverse.mp hch)) (by decide)] at h1
  have hdn : d = n := List.reverse_injective h1
  subst hdn
  have hlen := congrArg List.length h
  simp only [List.length_append] at hlen
  exact List.eq_nil_of_length_eq_zero (by omega)

theorem underTail_nil {r : Str} (c : Caps) (hne : r ≠ [])
    (hno : ¬ ∃ d, r = " under ".toList ++ d ∧ d ≠ [] ∧ ∀ ch ∈ d, isDigit ch = true) :
    underTail.run r c = [] := by
  rw [List.eq_nil_iff_forall_not_mem]
  intro x hx
  obtain ⟨z, hz, hx⟩ := mem_run_seq hx
  obtain ⟨hz1, -⟩ := mem_run_eoi hx
  simp only [Re.run, List.mem_append, List.mem_singleton] at hz
  rcases hz with hz | hz
  · have hz2 : z ∈ (Re.seq (L " under ") (.grp .max (.plus isDigit))).run r c := by
      simpa only [Re.run] using hz
    obtain ⟨w, hw, hz3⟩ := mem_run_seq hz2
    obtain ⟨hw1, -⟩ := mem_run_lit hw
    simp only [Re.run, List.mem_map] at hz3
    obtain ⟨u, hu, rfl⟩ := hz3
    have hu2 : u ∈ (Re.plus isDigit).run w.1 w.2 := by
      simpa only [Re.run] using hu
    obtain ⟨a, hane, hall, hwa, -⟩ := mem_run_plus hu2
    simp only at hz1
    rw [hz1, List.append_nil] at hwa
    exact hno ⟨a, by rw [hw1, hwa], hane, hall⟩
  · rw [hz] at hz1
    exact hne hz1

theorem underTail_under {n : Str} (c : Caps) (hne : n ≠ [])
    (hn : ∀ ch ∈ n, isDigit ch = true) :
    (underTail.run (" under ".toList ++ n) c).head? = some ([], c.set .max n) := by
  have h1 : ((Re.opt (.seq (L " under ") (.grp .max (.plus isDigit)))).run
      (" under ".toList ++ n) c).head? = some ([], c.set .max n) := by
    apply first_opt
    have h2 : ((L " under ").run (" under ".toList ++ n) c).head? = some (n, c) :=
      congrArg List.head? (run_lit_append _ _ _)
    apply first_seq h2
    rw [first_grp .max (first_plus_all c hne hn)]
    simp
  unfold underTail
  apply first_seq h1
  simp [run_eoi_nil]

theorem underTail_end (c : Caps) : underTail.run [] c = [([], c)] := by
  rfl

theorem head_lazyRests (p : Char → Bool) (s : Str) : (lazyRests p s).head? = some s := by
  cases s <;> rfl

/-- A lazy run skips every stopping place at which what follows fails. -/
theorem lazy_skip {β : Type} {p : Char → Bool} (f : Str → List β) (a b : Str)
    (ha : ∀ ch ∈ a, p ch = true)
    (hf : ∀ a1 a2, a = a1 ++ a2 → a2 ≠ [] → f (a2 ++ b) = []) :
    (lazyRests p (a ++ b)).flatMap f = (lazyRests p b).flatMap f := by
  induction a with
  | nil => rfl
  | cons y ys ih =>
    have hy : p y = true := ha y (List.mem_cons_self _ _)
    have h0 : f ((y :: ys) ++ b) = [] := hf [] (y :: ys) rfl (by simp)
    simp only [List.cons_append] at h0
    have e : lazyRests p (y :: ys ++ b) = (y :: (ys ++ b)) :: lazyRests p (ys ++ b) := by
      show lazyRests p (y :: (ys ++ b)) = _
      simp only [lazyRests, hy, if_true]
    rw [e, List.flatMap_cons, h0, List.nil_append]
    apply ih (fun ch hch => ha ch (List.mem_cons_of_mem _ hch))
    intro a1 a2 h12 hne
    exact hf (y :: a1) a2 (by rw [h12]; rfl) hne

/-- The lazy item of the search patterns: it stops at the first place `b` from
which the rest of the pattern matches. -/
theorem searchTail_split {X b : Str} {c : Caps} {y : Str × Caps} (hne : X ≠ [])
    (hdot : ∀ ch ∈ X, isDot ch = true)
    (hskip : ∀ a1 a2 c2, X = a1 ++ a2 → a1 ≠ [] → a2 ≠ [] → underTail.run (a2 ++ b) c2 = [])
    (hb : (underTail.run b (c.set .item X)).head? = some y) :
    (searchTail.run (X ++ b) c).head? = some y := by
  cases X with
  | nil => exact absurd rfl hne
  | cons x xs =>
    have hx : isDot x = true := hdot x (List.mem_cons_self _ _)
    have hxs : ∀ ch ∈ xs, isDot ch = true := fun ch hch => hdot ch (List.mem_cons_of_mem _ hch)
    show ((Re.seq (.grp .item (.plusLazy isDot)) underTail).run (x :: xs ++ b) c).head? = some y
    simp only [Re.run, List.cons_append, hx, if_true, List.map_map, List.flatMap_map]
    rw [lazy_skip _ xs b hxs]
    · apply head_flatMap (head_lazyRests _ _)
      have ht : List.take ((x :: (xs ++ b)).length - b.length) (x :: (xs ++ b)) = x :: xs := by
        have := take_consumed (x :: xs) b
        simpa using this
      simp only [Function.comp, ht]
      exact hb
    · intro a1 a2 h12 hne2
      simp only [Function.comp]
      exact hskip (x :: a1) a2 _ (by rw [h12]; rfl) (by simp) hne2

theorem searchTail_under {X n : Str} (c : Caps) (hne : X ≠ [])
    (hdot : ∀ ch ∈ X, isDot ch = true) (hn : n ≠ []) (hdig : ∀ ch ∈ n, isDigit ch = true) :
    (searchTail.run (X ++ (" under ".toList ++ n)) c).head? =
      some ([], (c.set .item X).set .max n) := by
  apply searchTail_split hne hdot
  · intro a1 a2 c2 _ _ hne2
    apply underTail_nil
    · simp [hne2]
    · rintro ⟨d, hd, -, hdd⟩
      exact hne2 (under_unique hdd hdig hd.symm)
  · exact underTail_under _ hn hdig

theorem searchTail_plain {X : Str} (c : Caps) (hne : X ≠ [])
    (hdot : ∀ ch ∈ X, isDot ch = true)
    (hno : ¬ ∃ pre d, X = pre ++ (" under ".toList ++ d) ∧ d ≠ [] ∧ d.all isDigit = true) :
    (searchTail.run X c).head? = some ([], c.set .item X) := by
  have h := searchTail_split (X := X) (b := []) (c := c) (y := ([], c.set .item X)) hne hdot
    (by
      intro a1 a2 c2 h12 _ hne2
      apply underTail_nil
      · simp [hne2]
      · rintro ⟨d, hd, hdne, hdd⟩
        rw [List.append_nil] at hd
        exact hno ⟨a1, d, by rw [h12, hd], hdne, List.all_eq_true.mpr hdd⟩)
    (by rw [underTail_end]; rfl)
  simpa using h

/-- After "find": the optional " me" and the space, on a text that does not
go on with "me ". -/
theorem find_me_skip (K : Re) {s : Str} (c : Caps) (hme : ¬ "me ".toList <+: s) :
    (Re.seq (.opt (L " me")) (.seq (L " ") K)).run (' ' :: s) c = K.run s c := by
  have hsp : (Re.seq (L " ") K).run (' ' :: s) c = K.run s c := by
    have e : (L " ").run (' ' :: s) c = [(s, c)] := run_lit_append " ".toList s c
    simp only [Re.run] at e ⊢
    rw [e]
    simp
  cases hd : dropLit " me".toList (' ' :: s) with
  | none =>
    simp only [Re.run, L, hd, List.nil_append, List.flatMap_cons, List.flatMap_nil,
      List.append_nil]
    simpa only [Re.run, L] using hsp
  | some rest =>
    have hs : ' ' :: s = " me".toList ++ rest := dropLit_eq_some.mp hd
    have hs2 : s = "me".toList ++ rest := by
      have : ' ' :: s = ' ' :: ("me".toList ++ rest) := hs
      exact List.tail_eq_of_cons_eq this
    have hrest : (Re.seq (L " ") K).run rest c = [] := by
      apply run_seq_nil
      apply run_L_nil
      rintro ⟨r, hr⟩
      apply hme
      refine ⟨r, ?_⟩
      rw [hs2, ← hr]
      rfl
    simp only [Re.run, L, hd, List.flatMap_cons, List.flatMap_nil, List.append_nil,
      List.cons_append, List.nil_append]
    simp only [Re.run, L] at hrest hsp
    rw [hrest, hsp, List.nil_append]

theorem findRe_run {s : Str} (hme : ¬ "me ".toList <+: s) :
    findRe.run ("find".toList ++ (' ' :: s)) {} = searchTail.run s {} := by
  have e : (L "find").run ("find".toList ++ (' ' :: s)) {} = [(' ' :: s, {})] :=
    run_lit_append _ _ _
  have k := find_me_skip searchTail {} hme
  simp only [findRe, Re.seqs]
  simp only [Re.run] at e k ⊢
  rw [e]
  simp only [List.flatMap_cons, List.flatMap_nil, List.append_nil]
  exact k

theorem no_under_of_last {t : Str} {c : Char} (h : t.getLast? = some c)
    (hc : isDigit c = false) :
    ¬ ∃ pre d, d ≠ [] ∧ d.all isDigit = true ∧ t = pre ++ (" under ".toList ++ d) := by
  rintro ⟨pre, d, hne, hd, rfl⟩
  rw [← List.append_assoc, List.getLast?_append_of_ne_nil _ hne] at h
  have hmem : c ∈ d := List.mem_of_getLast?_eq_some h
  have := List.all_eq_true.mp hd c hmem
  rw [hc] at this
  exact absurd this (by simp)

theorem maxPriceOf_eq_some {m : Caps} {v : Int} (h : maxPriceOf m = some v) :
    ∃ d, m.max = some d ∧ d ≠ [] ∧ v = (digitsValue 0 d : Int) := by
  unfold maxPriceOf at h
  split at h
  · simp at h
  · rename_i d hd
    by_cases hne : d = []
    · simp [hne] at h
    · rw [if_neg hne] at h
      simp only [Option.some.injEq] at h
      exact ⟨d, hd, hne, h.symm⟩

/-! ## Where the item and the quantity of a command come from -/

theorem trimEnd_starts (s : Str) : trimEnd s <+: s := by
  rw [← List.reverse_suffix]
  unfold trimEnd
  rw [List.reverse_reverse]
  exact List.dropWhile_suffix _

theorem trim_within (s : Str) : trim s <:+: s :=
  List.IsInfix.trans (trimEnd_starts _).isInfix (List.dropWhile_suffix isWhiteSpace).isInfix

theorem exec_within {r : Re} {t : Str} {m : Caps} (h : r.exec t = some m) : m.Within t := by
  obtain ⟨x, hx, rfl⟩ := mem_of_exec h
  exact run_captures_within t r t {} (List.suffix_refl t) (Caps.Within_empty t) x hx

theorem itemOf_within {m : Caps} {t : Str} (h : m.Within t) : itemOf m <:+: t := by
  unfold itemOf
  cases hi : m.item with
  | none => exact List.nil_infix
  | some x =>
    have hx : x <:+: t := h .item x hi
    exact List.IsInfix.trans (trim_within x) hx

/-- The item of a returned command is cut from the trimmed lower-cased text. -/
theorem parseCommand_item_within {text item : Str}
    (h : (parseCommand text).item? = some item) : item <:+: trim (toLowerCase text) := by
  rcases parseCommand_cases text with ⟨m, hm, hc⟩ | ⟨m, hm, hc⟩ | ⟨m, hm, hc⟩ | ⟨m, hm, hc⟩ |
    ⟨m, hm, hc⟩ | hc
  · rw [hc] at h
    simp only [Command.item?, Option.some.injEq] at h
    subst h
    rcases hm with hm | hm
    · exact itemOf_within (exec_within hm)
    · exact itemOf_within (exec_within hm)
  · rw [hc] at h
    simp only [Command.item?, Option.some.injEq] at h
    subst h
    exact itemOf_within (exec_within hm)
  · rw [hc] at h
    simp only [Command.item?, Option.some.injEq] at h
    subst h
    exact itemOf_within (exec_within hm)
  · rw [hc] at h
    simp only [Command.item?, Option.some.injEq] at h
    subst h
    exact itemOf_within (exec_within hm)
  · rw [hc] at h
    simp only [Command.item?, Option.some.injEq] at h
    subst h
    exact itemOf_within (exec_within hm)
  · rw [hc] at h
    simp [Command.item?] at h

theorem mem_qtyRe {s : Str} {c : Caps} {x : Str × Caps} (h : x ∈ qtyRe.run s c) :
    ∃ tok v, s = tok ++ x.1 ∧ qtyValue tok = some v := by
  have lit : ∀ (w : String) (v : Int), qtyValue w.toList = some v → x ∈ (L w).run s c →
      ∃ tok v, s = tok ++ x.1 ∧ qtyValue tok = some v := by
    intro w v hv hx
    exact ⟨w.toList, v, (mem_run_lit hx).1, hv⟩
  simp only [qtyRe, Re.alts] at h
  simp only [Re.run, List.mem_append] at h
  rcases h with h | h | h | h | h | h | h | h | h | h | h
  · have h2 : x ∈ (Re.plus isDigit).run s c := by simpa only [Re.run] using h
    obtain ⟨a, hane, hall, hs, -⟩ := mem_run_plus h2
    refine ⟨a, (digitsValue 0 a : Int), hs, ?_⟩
    unfold qtyValue
    rw [if_pos ⟨hane, List.all_eq_true.mpr hall⟩]
  · exact lit "one" 1 (by decide) (by simpa only [Re.run] using h)
  · exact lit "two" 2 (by decide) (by simpa only [Re.run] using h)
  · exact lit "three" 3 (by decide) (by simpa only [Re.run] using h)
  · exact lit "four" 4 (by decide) (by simpa only [Re.run] using h)
  · exact lit "five" 5 (by decide) (by simpa only [Re.run] using h)
  · exact lit "six" 6 (by decide) (by simpa only [Re.run] using h)
  · exact lit "seven" 7 (by decide) (by simpa only [Re.run] using h)
  · exact lit "eight" 8 (by decide) (by simpa only [Re.run] using h)
  · exact lit "nine" 9 (by decide) (by simpa only [Re.run] using h)
  · exact lit "ten" 10 (by decide) (by simpa only [Re.run] using h)

/-- Whatever a pattern captures in the group `qty` is a quantity token, when
each of its `qty` groups wraps the quantity pattern. -/
theorem run_qty_token (r : Re) : Re.QtyGroups qtyRe r → ∀ (s : Str) (c : Caps),
    (∀ tok, c.qty = some tok → ∃ v, qtyValue tok = some v) →
    ∀ x ∈ r.run s c, ∀ tok, x.2.qty = some tok → ∃ v, qtyValue tok = some v := by
  induction r with
  | lit w =>
    intro _ s c hc x hx
    rw [(mem_run_lit hx).2]
    exact hc
  | chr p =>
    intro _ s c hc x hx
    cases s with
    | nil => simp [Re.run] at hx
    | cons y ys =>
      by_cases hy : p y = true
      · simp only [Re.run, hy, if_true, List.mem_singleton] at hx
        subst hx
        exact hc
      · simp [Re.run, hy] at hx
  | seq a b iha ihb =>
    intro hq s c hc x hx
    obtain ⟨y, hy, hxy⟩ := mem_run_seq hx
    exact ihb hq.2 y.1 y.2 (iha hq.1 s c hc y hy) x hxy
  | alt a b iha ihb =>
    intro hq s c hc x hx
    simp only [Re.run, List.mem_append] at hx
    rcases hx with hx | hx
    · exact iha hq.1 s c hc x hx
    · exact ihb hq.2 s c hc x hx
  | opt a iha =>
    intro hq s c hc x hx
    simp only [Re.run, List.mem_append, List.mem_singleton] at hx
    rcases hx with hx | hx
    · exact iha hq s c hc x hx
    · subst hx
      exact hc
  | plus p =>
    intro _ s c hc x hx
    rw [(mem_run_plus hx).choose_spec.2.2.2]
    exact hc
  | star p =>
    intro _ s c hc x hx
    simp only [Re.run, List.mem_map] at hx
    obtain ⟨r, -, rfl⟩ := hx
    exact hc
  | plusLazy p =>
    intro _ s c hc x hx
    cases s with
    | nil => simp [Re.run] at hx
    | cons y ys =>
      by_cases hy : p y = true
      · simp only [Re.run, hy, if_true, List.mem_map] at hx
        obtain ⟨r, -, rfl⟩ := hx
        exact hc
      · simp [Re.run, hy] at hx
  | grp g a iha =>
    intro hq s c hc x hx
    simp only [Re.run, List.mem_map] at hx
    obtain ⟨y, hy, rfl⟩ := hx
    cases g with
    | item => exact iha hq s c hc y hy
    | max => exact iha hq s c hc y hy
    | qty =>
      have ha : a = qtyRe := hq
      subst ha
      obtain ⟨tok, v, hs, hv⟩ := mem_qtyRe hy
      intro tok2 h2
      simp only [Caps.set, Option.some.injEq] at h2
      have ht : List.take (s.length - y.1.length) s = tok := by
        rw [hs]
        exact take_consumed tok y.1
      rw [ht] at h2
      subst h2
      exact ⟨v, hv⟩
  | eoi =>
    intro _ s c hc x hx
    rw [(mem_run_eoi hx).2]
    exact hc

theorem exec_qty_token {r : Re} (hr : Re.QtyGroups qtyRe r) {t : Str} {m : Caps}
    (h : r.exec t = some m) : ∀ tok, m.qty = some tok → ∃ v, qtyValue tok = some v := by
  obtain ⟨x, hx, rfl⟩ := mem_of_exec h
  exact run_qty_token r hr t {} (by intro tok h; simp at h) x hx

theorem addRe_qtyGroups : Re.QtyGroups qtyRe addRe := by
  simp [addRe, Re.seqs, Re.alts, Re.QtyGroups, L]

theorem modifyRe_qtyGroups : Re.QtyGroups qtyRe modifyRe := by
  simp [modifyRe, Re.seqs, Re.alts, Re.QtyGroups, L]

theorem nounRe_qtyGroups : Re.QtyGroups qtyRe nounRe := by
  simp [nounRe, Re.seqs, Re.alts, Re.QtyGroups, L]

theorem digitsValue_ge (acc : Nat) (ds : Str) : acc ≤ digitsValue acc ds := by
  induction ds generalizing acc with
  | nil => exact Nat.le_refl _
  | cons d ds ih =>
    have h1 : acc ≤ acc * 10 + (d.toNat - 48) := by omega
    exact Nat.le_trans h1 (ih _)

/-- The number of a quantity token is at least 1, except that a run of digits
of value zero, which starts with the digit 0, gives 0. -/
theorem qtyValue_range {tok : Str} {v : Int} (h : qtyValue tok = some v) :
    1 ≤ v ∨ (v = 0 ∧ '0' ∈ tok) := by
  unfold qtyValue at h
  split at h
  · rename_i hd
    obtain ⟨hne, hall⟩ := hd
    simp only [Option.some.injEq] at h
    subst h
    by_cases hz : digitsValue 0 tok = 0
    · right
      refine ⟨by simp [hz], ?_⟩
      cases tok with
      | nil => exact absurd rfl hne
      | cons d ds =>
        have hd : isDigit d = true := List.all_eq_true.mp hall d (List.mem_cons_self _ _)
        simp only [isDigit, Bool.and_eq_true, decide_eq_true_eq] at hd
        have hge := digitsValue_ge (0 * 10 + (d.toNat - 48)) ds
        have hz2 : digitsValue (0 * 10 + (d.toNat - 48)) ds = 0 := hz
        have h48 : d.toNat = 48 := by
          clear hz hall hne
          omega
        have hd0 : d = '0' := by
          rw [← Char.ofNat_toNat d, h48]
        rw [hd0]
        exact List.mem_cons_self _ _
    · left
      have : 1 ≤ digitsValue 0 tok := Nat.one_le_iff_ne_zero.mpr hz
      exact_mod_cast this
  · have hmem : (tok, v) ∈ numberWords := by
      obtain ⟨l1, l2, h2, -⟩ := List.lookup_eq_some_iff.mp h
      rw [h2]
      simp
    simp only [numberWords, List.mem_cons, Prod.mk.injEq, List.mem_singleton] at hmem
    simp only [List.not_mem_nil, or_false] at hmem
    left
    rcases hmem with h | h | h | h | h | h | h | h | h | h <;> obtain ⟨-, rfl⟩ := h <;> decide

theorem toNumber_of_token {tok : Str} {v : Int} (h : qtyValue tok = some v) :
    toNumber (some tok) = v :=
  (qtyRe_first h [] {}).2.1

theorem zero_of_lower {text : Str} (h : '0' ∈ trim (toLowerCase text)) : '0' ∈ text := by
  have h1 : '0' ∈ toLowerCase text := trim_sub _ _ h
  simp only [toLowerCase, List.mem_map] at h1
  obtain ⟨c, hc, hc0⟩ := h1
  have hn := toLowerChar_toNat c
  rw [hc0] at hn
  have h48 : ('0' : Char).toNat = 48 := rfl
  rw [h48] at hn
  have hup : ¬ (65 ≤ c.toNat ∧ c.toNat ≤ 90) := by
    intro hu
    rw [if_pos hu] at hn
    omega
  rw [toLowerChar_of_not_upper hup] at hc0
  rw [← hc0]
  exact hc

/-- The quantity of a match: 1 without a token, else the number of the token. -/
theorem toNumber_range {r : Re} (hr : Re.QtyGroups qtyRe r) {text : Str} {m : Caps}
    (h : r.exec (trim (toLowerCase text)) = some m) :
    1 ≤ toNumber m.qty ∨ (toNumber m.qty = 0 ∧ '0' ∈ text) := by
  cases hq : m.qty with
  | none => exact Or.inl (by decide)
  | some tok =>
    obtain ⟨v, hv⟩ := exec_qty_token hr h tok hq
    rw [toNumber_of_token hv]
    rcases qtyValue_range hv with h1 | ⟨h0, hmem⟩
    · exact Or.inl h1
    · right
      refine ⟨h0, zero_of_lower ?_⟩
      exact (exec_within h .qty tok hq).subset hmem

/-! ## Claims on `parseCommand` -/

/-- C5: `parseCommand` is total, and it returns the unknown command for every
text that is empty or only white space and for every text whose trimmed
lower-cased form begins with none of the command verbs; the text
"xyz not a command" is unknown. -/
theorem parseCommand_unknown (text : Str) :
    ((∀ ch ∈ text, isWhiteSpace ch = true) → parseCommand text = .unknown) ∧
    ((∀ v ∈ commandVerbs, ¬ v <+: trim (toLowerCase text)) → parseCommand text = .unknown) ∧
    parseCommand "xyz not a command".toList = .unknown := by
  have key : (∀ v ∈ commandVerbs, ¬ v <+: trim (toLowerCase text)) →
      parseCommand text = .unknown := by
    intro h
    have v := fun (w : Str) (hw : w ∈ commandVerbs) => h w hw
    apply parseCommand_of_no_match
    · exact findRe_nil (v _ (by decide))
    · exact searchRe_nil (v _ (by decide)) (v _ (by decide))
    · exact addRe_nil (v _ (by decide)) (v _ (by decide)) (v _ (by decide)) (v _ (by decide))
        (v _ (by decide)) (v _ (by decide))
    · exact removeRe_nil (v _ (by decide)) (v _ (by decide)) (v _ (by decide)) (v _ (by decide))
    · exact modifyRe_nil (v _ (by decide)) (v _ (by decide)) (v _ (by decide))
    · exact nounRe_nil (v _ (by decide)) (v _ (by decide))
  refine ⟨?_, key, by decide⟩
  intro hblank
  apply key
  intro w hw
  rw [trim_lower_of_blank hblank]
  intro hp
  have hnil : w = [] := List.prefix_nil.mp hp
  subst hnil
  revert hw
  decide

/-- C1, as the code has it: for every item phrase whose lower-cased, trimmed
form is not empty, has no line-break character and does not start with a
digit or with one of the words one..ten, `parseCommand("add " + item)` is the
add command with that lower-cased, trimmed phrase as item and quantity 1. -/
theorem parseCommand_add_default (item : Str)
    (hne : trim (toLowerCase item) ≠ [])
    (hline : ∀ ch ∈ trim (toLowerCase item), isLineTerminator ch = false)
    (hdig : ∀ x ∈ (trim (toLowerCase item)).head?, isDigit x = false)
    (hword : ∀ w ∈ numberWords, ¬ w.1 <+: trim (toLowerCase item)) :
    parseCommand ("add ".toList ++ item) = .add (trim (toLowerCase item)) 1 := by
  obtain ⟨l, -, -, hl, ht⟩ := trim_lit_phrase ("add ".toList) (toLowerCase item)
    ⟨'a', "dd ".toList, rfl, by decide⟩ hne
  have hT : Tight (trim (toLowerCase item)) := (trim_decomp _).choose_spec.choose_spec.2.2.2
  have hlow : toLowerCase ("add ".toList ++ item) = "add ".toList ++ toLowerCase item := by
    rw [toLowerCase_append]
    rfl
  have hadd : (addRe.run (trim (toLowerCase ("add ".toList ++ item))) {}).head? =
      some ([], ({} : Caps).set .item (trim (toLowerCase item))) := by
    rw [hlow, ht]
    simp only [addRe, Re.seqs]
    have h1 : ((Re.alts [L "add", L "buy", L "i need", L "i want to buy", L "put",
        L "include"]).run ("add ".toList ++ (l ++ trim (toLowerCase item))) {}).head? =
        some (' ' :: (l ++ trim (toLowerCase item)), {}) := by
      simp only [Re.alts]
      apply first_alt_left
      exact congrArg List.head?
        (run_lit_append "add".toList (' ' :: (l ++ trim (toLowerCase item))) {})
    apply first_seq h1
    apply first_seq (first_plus_ws _ (by decide) hl hT)
    exact addRe_tail_default hne hT (isDot_of_not_lineTerminator hline) (qtyRe_nil _ hdig hword)
  have hf : findRe.run (trim (toLowerCase ("add ".toList ++ item))) {} = [] := by
    rw [hlow, ht]
    exact findRe_nil (not_starts_of_head rfl rfl (by decide))
  have hs : searchRe.run (trim (toLowerCase ("add ".toList ++ item))) {} = [] := by
    rw [hlow, ht]
    exact searchRe_nil (not_starts_of_head rfl rfl (by decide))
      (not_starts_of_head rfl rfl (by decide))
  unfold parseCommand
  rw [if_neg (by simp)]
  simp only [exec_of_nil hf, exec_of_nil hs, exec_of_first hadd, Option.orElse]
  rw [itemOf_set_item _ hT]
  rfl

/-- C1, the claim as stated fails: on "add Basmati Rice" the item returned is
"basmati rice", not the phrase "Basmati Rice". -/
theorem parseCommand_add_default_counterexample :
    parseCommand ("add ".toList ++ "Basmati Rice".toList) = .add "basmati rice".toList 1 ∧
    parseCommand ("add ".toList ++ "Basmati Rice".toList) ≠ .add "Basmati Rice".toList 1 := by
  decide

/-- C1, an instance: "add Whole Milk". -/
theorem parseCommand_add_default_witness :
    trim (toLowerCase "Whole Milk".toList) ≠ [] ∧
    (∀ ch ∈ trim (toLowerCase "Whole Milk".toList), isLineTerminator ch = false) ∧
    (∀ x ∈ (trim (toLowerCase "Whole Milk".toList)).head?, isDigit x = false) ∧
    (∀ w ∈ numberWords, ¬ w.1 <+: trim (toLowerCase "Whole Milk".toList)) ∧
    parseCommand ("add ".toList ++ "Whole Milk".toList) =
      .add (trim (toLowerCase "Whole Milk".toList)) 1 :=
  ⟨by decide, by decide, by decide, by decide,
    parseCommand_add_default "Whole Milk".toList (by decide) (by decide) (by decide) (by decide)⟩

/-- The add pattern has no word boundary after the quantity token: the start
of "tennis" is read as the number ten. -/
theorem parseCommand_tennis_balls :
    parseCommand "add tennis balls".toList = .add "nis balls".toList 10 := by
  decide

/-- C2, as the code has it: for every quantity token `q` (a run of digits or
one of the words one..ten) denoting a number `v` of at most `2^53`, the range
in which the code reads digits exactly, and every item phrase whose
lower-cased, trimmed form is not empty and has no line-break character,
`parseCommand("add " + q + " " + item)` is the add command with the lower-cased,
trimmed phrase as item and quantity `v`. -/
theorem parseCommand_add_qty (q item : Str) (v : Int) (hq : qtyValue q = some v)
    (_hv : v ≤ (maxExact : Int))
    (hne : trim (toLowerCase item) ≠ [])
    (hline : ∀ ch ∈ trim (toLowerCase item), isLineTerminator ch = false) :
    parseCommand ("add ".toList ++ (q ++ (" ".toList ++ item))) =
      .add (trim (toLowerCase item)) v := by
  obtain ⟨-, hnum, hlq, a, tl, hqa, haws⟩ := qtyRe_first hq [] {}
  obtain ⟨l, -, -, hl, ht⟩ := trim_lit_phrase ("add ".toList ++ (q ++ " ".toList))
    (toLowerCase item) ⟨'a', "dd ".toList ++ (q ++ " ".toList), rfl, by decide⟩ hne
  have hT : Tight (trim (toLowerCase item)) := trim_tight_of _
  have hlow : trim (toLowerCase ("add ".toList ++ (q ++ (" ".toList ++ item)))) =
      "add".toList ++ (' ' :: (q ++ ' ' :: (l ++ trim (toLowerCase item)))) := by
    have e : "add ".toList ++ (q ++ (" ".toList ++ item)) =
        ("add ".toList ++ (q ++ " ".toList)) ++ item := by simp
    rw [e, toLowerCase_append, toLowerCase_append, toLowerCase_append, hlq]
    have e2 : toLowerCase "add ".toList ++ (q ++ toLowerCase " ".toList) =
        "add ".toList ++ (q ++ " ".toList) := rfl
    rw [e2, ht]
    simp
  have hadd : (addRe.run (trim (toLowerCase ("add ".toList ++ (q ++ (" ".toList ++ item))))) {}).head? =
      some ([], (({} : Caps).set .qty q).set .item (trim (toLowerCase item))) := by
    rw [hlow]
    simp only [addRe, Re.seqs]
    have h1 : ((Re.alts [L "add", L "buy", L "i need", L "i want to buy", L "put",
        L "include"]).run ("add".toList ++
          (' ' :: (q ++ ' ' :: (l ++ trim (toLowerCase item))))) {}).head? =
        some (' ' :: (q ++ ' ' :: (l ++ trim (toLowerCase item))), {}) := by
      simp only [Re.alts]
      apply first_alt_left
      exact congrArg List.head? (run_lit_append "add".toList _ {})
    apply first_seq h1
    have h2 : ((Re.plus isWhiteSpace).run
        (' ' :: (q ++ ' ' :: (l ++ trim (toLowerCase item)))) {}).head? =
        some (q ++ ' ' :: (l ++ trim (toLowerCase item)), {}) := by
      rw [first_plus _ _ (by decide), hqa, List.cons_append,
        List.dropWhile_cons_of_neg (by simp [haws])]
    apply first_seq h2
    have h3 : ((Re.opt (.grp .qty qtyRe)).run
        (q ++ ' ' :: (l ++ trim (toLowerCase item))) {}).head? =
        some (' ' :: (l ++ trim (toLowerCase item)), ({} : Caps).set .qty q) := by
      apply first_opt
      rw [first_grp .qty (qtyRe_first hq _ {}).1]
      have := take_consumed q (' ' :: (l ++ trim (toLowerCase item)))
      simp only at this ⊢
      rw [this]
    apply first_seq h3
    have h4 : ((Re.star isWhiteSpace).run (' ' :: (l ++ trim (toLowerCase item)))
        (({} : Caps).set .qty q)).head? =
        some (trim (toLowerCase item), ({} : Caps).set .qty q) := by
      rw [first_star, List.dropWhile_cons, if_pos (by decide), dropWhile_append_all _ hl,
        dropWhile_of_head hT.1]
    apply first_seq h4
    exact first_item_eoi _ hne (isDot_of_not_lineTerminator hline)
  have hf : findRe.run (trim (toLowerCase ("add ".toList ++ (q ++ (" ".toList ++ item))))) {}
      = [] := by
    rw [hlow]
    exact findRe_nil (not_starts_of_head rfl rfl (by decide))
  have hs : searchRe.run (trim (toLowerCase ("add ".toList ++ (q ++ (" ".toList ++ item))))) {}
      = [] := by
    rw [hlow]
    exact searchRe_nil (not_starts_of_head rfl rfl (by decide))
      (not_starts_of_head rfl rfl (by decide))
  unfold parseCommand
  rw [if_neg (by simp)]
  simp only [exec_of_nil hf, exec_of_nil hs, exec_of_first hadd, Option.orElse]
  rw [itemOf_set_item _ hT]
  show Command.add _ (toNumber (some q)) = _
  rw [hnum]

/-- C2, the claim as stated fails: on "add 2 Green Apples" the item returned
is "green apples", not the phrase "Green Apples". -/
theorem parseCommand_add_qty_counterexample :
    parseCommand ("add ".toList ++ ("2".toList ++ (" ".toList ++ "Green Apples".toList))) =
      .add "green apples".toList 2 ∧
    parseCommand ("add ".toList ++ ("2".toList ++ (" ".toList ++ "Green Apples".toList))) ≠
      .add "Green Apples".toList 2 := by
  decide

/-- C2, two instances: "add 12 Green Apples" and "add three eggs". -/
theorem parseCommand_add_qty_witness :
    (qtyValue "12".toList = some 12 ∧ qtyValue "three".toList = some 3 ∧
      (12 : Int) ≤ (maxExact : Int) ∧ (3 : Int) ≤ (maxExact : Int)) ∧
    parseCommand ("add ".toList ++ ("12".toList ++ (" ".toList ++ "Green Apples".toList))) =
      .add (trim (toLowerCase "Green Apples".toList)) 12 ∧
    parseCommand ("add ".toList ++ ("three".toList ++ (" ".toList ++ "eggs".toList))) =
      .add (trim (toLowerCase "eggs".toList)) 3 :=
  ⟨by decide,
    parseCommand_add_qty "12".toList "Green Apples".toList 12 (by decide) (by decide)
      (by decide) (by decide),
    parseCommand_add_qty "three".toList "eggs".toList 3 (by decide) (by decide) (by decide)
      (by decide)⟩

/-- C4, as the code has it: for every text that begins with "remove " or
"delete " and whose rest, lower-cased and trimmed, is not empty and has no
line-break character, `parseCommand` returns the remove command whose item is
that lower-cased, trimmed rest. -/
theorem parseCommand_remove (verb item : Str)
    (hv : verb = "remove".toList ∨ verb = "delete".toList)
    (hne : trim (toLowerCase item) ≠ [])
    (hline : ∀ ch ∈ trim (toLowerCase item), isLineTerminator ch = false) :
    parseCommand (verb ++ (" ".toList ++ item)) = .remove (trim (toLowerCase item)) := by
  have hT : Tight (trim (toLowerCase item)) := trim_tight_of _
  have hverb : toLowerCase verb = verb ∧ (∃ a rest, verb = a :: rest ∧ isWhiteSpace a = false ∧
      a ≠ 'f' ∧ a ≠ 's' ∧ a ≠ 'l' ∧ a ≠ 'a' ∧ a ≠ 'b' ∧ a ≠ 'i' ∧ a ≠ 'p') := by
    rcases hv with rfl | rfl
    · exact ⟨rfl, _, _, rfl, by decide⟩
    · exact ⟨rfl, _, _, rfl, by decide⟩
  obtain ⟨hlv, a, rest, hva, haws, hf, hs, hl, ha, hb, hi, hp⟩ := hverb
  obtain ⟨l, -, -, hl2, ht⟩ := trim_lit_phrase (verb ++ " ".toList)
    (toLowerCase item) ⟨a, rest ++ " ".toList, by rw [hva]; rfl, haws⟩ hne
  have hlow : trim (toLowerCase (verb ++ (" ".toList ++ item))) =
      verb ++ (' ' :: (l ++ trim (toLowerCase item))) := by
    have e : verb ++ (" ".toList ++ item) = (verb ++ " ".toList) ++ item := by simp
    rw [e, toLowerCase_append, toLowerCase_append, hlv]
    have e2 : toLowerCase " ".toList = " ".toList := rfl
    rw [e2, ht]
    simp
  have hhead : (verb ++ (' ' :: (l ++ trim (toLowerCase item)))).head? = some a := by
    rw [hva]
    rfl
  have hrem : (removeRe.run (trim (toLowerCase (verb ++ (" ".toList ++ item)))) {}).head? =
      some ([], ({} : Caps).set .item (trim (toLowerCase item))) := by
    rw [hlow]
    simp only [removeRe, Re.seqs]
    have h1 : ((Re.alts [L "remove", L "delete",
        .seq (L "take ") (Re.alts [L "off", L "out"])]).run
          (verb ++ (' ' :: (l ++ trim (toLowerCase item)))) {}).head? =
        some (' ' :: (l ++ trim (toLowerCase item)), {}) := by
      simp only [Re.alts]
      rcases hv with rfl | rfl
      · apply first_alt_left
        exact congrArg List.head? (run_lit_append "remove".toList _ {})
      · have nr : ¬ "remove".toList <+:
            ("delete".toList ++ (' ' :: (l ++ trim (toLowerCase item)))) :=
          not_starts_of_head rfl rfl (by decide)
        rw [run_alt_right _ (run_L_nil _ nr)]
        apply first_alt_left
        exact congrArg List.head? (run_lit_append "delete".toList _ {})
    apply first_seq h1
    apply first_seq (first_plus_ws _ (by decide) hl2 hT)
    exact first_item_eoi _ hne (isDot_of_not_lineTerminator hline)
  have n1 : findRe.run (trim (toLowerCase (verb ++ (" ".toList ++ item)))) {} = [] := by
    rw [hlow]
    exact findRe_nil (not_starts_of_head rfl hhead (Ne.symm hf))
  have n2 : searchRe.run (trim (toLowerCase (verb ++ (" ".toList ++ item)))) {} = [] := by
    rw [hlow]
    exact searchRe_nil (not_starts_of_head rfl hhead (Ne.symm hs))
      (not_starts_of_head rfl hhead (Ne.symm hl))
  have n3 : addRe.run (trim (toLowerCase (verb ++ (" ".toList ++ item)))) {} = [] := by
    rw [hlow]
    exact addRe_nil (not_starts_of_head rfl hhead (Ne.symm ha))
      (not_starts_of_head rfl hhead (Ne.symm hb)) (not_starts_of_head rfl hhead (Ne.symm hi))
      (not_starts_of_head rfl hhead (Ne.symm hi)) (not_starts_of_head rfl hhead (Ne.symm hp))
      (not_starts_of_head rfl hhead (Ne.symm hi))
  have hnil : verb ++ (" ".toList ++ item) ≠ [] := by
    rw [hva]
    simp
  unfold parseCommand
  rw [if_neg hnil]
  simp only [exec_of_nil n1, exec_of_nil n2, exec_of_nil n3, exec_of_first hrem, Option.orElse]
  rw [itemOf_set_item _ hT]

/-- C4, the claim as stated fails: on "remove Brown Bread" the item returned
is "brown bread", not the rest of the text "Brown Bread". -/
theorem parseCommand_remove_counterexample :
    parseCommand ("remove ".toList ++ "Brown Bread".toList) = .remove "brown bread".toList ∧
    parseCommand ("remove ".toList ++ "Brown Bread".toList) ≠ .remove "Brown Bread".toList := by
  decide

/-- C4, two instances: "remove Brown Bread" and "delete  soap ". -/
theorem parseCommand_remove_witness :
    parseCommand ("remove".toList ++ (" ".toList ++ "Brown Bread".toList)) =
      .remove (trim (toLowerCase "Brown Bread".toList)) ∧
    parseCommand ("delete".toList ++ (" ".toList ++ " soap ".toList)) =
      .remove (trim (toLowerCase " soap ".toList)) :=
  ⟨parseCommand_remove "remove".toList "Brown Bread".toList (Or.inl rfl) (by decide) (by decide),
    parseCommand_remove "delete".toList " soap ".toList (Or.inr rfl) (by decide) (by decide)⟩

/-- C3, as the code has it.  (1) For every digit string `n` of value at most
`2^53`, the range in which the code reads digits exactly, and every item
phrase whose lower-cased form is not empty, has no line-break character, is
not "me" and does not begin with "me ", `parseCommand("find " + item +
" under " + n)` is the search command with the lower-cased, trimmed phrase as
item and maxPrice the number `n`.  (2) For every item phrase whose lower-cased
form has no line-break character, is not blank and does not begin with "me ",
if the trimmed lower-cased text "find " + item does not end with " under " and
digits, the result is the search command with the lower-cased, trimmed phrase
and no maxPrice.  (3) For every text at all, a search command with a maxPrice
is returned only when the trimmed lower-cased text ends with " under " and a
run of digits, and the maxPrice is the value of those digits when that is at
most `2^53`. -/
theorem parseCommand_find (item n : Str) :
    (n ≠ [] → n.all isDigit = true → digitsValue 0 n ≤ maxExact →
      toLowerCase item ≠ [] →
      (∀ ch ∈ toLowerCase item, isLineTerminator ch = false) →
      ¬ "me ".toList <+: toLowerCase item ++ " ".toList →
      parseCommand ("find ".toList ++ (item ++ (" under ".toList ++ n))) =
        .search (trim (toLowerCase item)) (some (digitsValue 0 n : Int))) ∧
    (trim (toLowerCase item) ≠ [] →
      (∀ ch ∈ toLowerCase item, isLineTerminator ch = false) →
      ¬ "me ".toList <+: toLowerCase item →
      (¬ ∃ pre d, d ≠ [] ∧ d.all isDigit = true ∧
        trim (toLowerCase ("find ".toList ++ item)) = pre ++ (" under ".toList ++ d)) →
      parseCommand ("find ".toList ++ item) = .search (trim (toLowerCase item)) none) ∧
    (∀ text it v, parseCommand text = .search it (some v) →
      ∃ pre d, d ≠ [] ∧ d.all isDigit = true ∧
        trim (toLowerCase text) = pre ++ (" under ".toList ++ d) ∧
        (digitsValue 0 d ≤ maxExact → v = (digitsValue 0 d : Int))) := by
  refine ⟨?_, ?_, ?_⟩
  · intro hn hdig _ hne hline hme
    have hdig2 : ∀ ch ∈ n, isDigit ch = true := fun ch hch => List.all_eq_true.mp hdig ch hch
    have hlow : toLowerCase ("find ".toList ++ (item ++ (" under ".toList ++ n))) =
        "find".toList ++ (' ' :: (toLowerCase item ++ (" under ".toList ++ n))) := by
      rw [toLowerCase_append, toLowerCase_append, toLowerCase_append, toLowerCase_digits hdig]
      rfl
    have hT : Tight ("find".toList ++ (' ' :: (toLowerCase item ++ (" under ".toList ++ n)))) := by
      constructor
      · intro c hc
        have : c = 'f' := by
          simpa using hc.symm
        subst this
        decide
      · intro c hc
        have e : "find".toList ++ (' ' :: (toLowerCase item ++ (" under ".toList ++ n))) =
            ("find".toList ++ (' ' :: (toLowerCase item ++ " under ".toList))) ++ n := by simp
        rw [e, List.getLast?_append_of_ne_nil _ hn] at hc
        exact digit_not_whiteSpace (hdig2 c (List.mem_of_getLast?_eq_some hc))
    have hme2 : ¬ "me ".toList <+: toLowerCase item ++ (" under ".toList ++ n) := by
      intro hp
      by_cases hlen : 2 ≤ (toLowerCase item).length
      · apply hme
        have e : toLowerCase item ++ (" under ".toList ++ n) =
            (toLowerCase item ++ " ".toList) ++ ("under ".toList ++ n) := by simp
        rw [e] at hp
        exact List.prefix_of_prefix_length_le hp (List.prefix_append _ _)
          (by simp only [List.length_append]; exact Nat.succ_le_succ hlen)
      · obtain ⟨r, hr⟩ := hp
        cases hX : toLowerCase item with
        | nil => exact hne hX
        | cons a as =>
          cases as with
          | nil =>
            rw [hX] at hr
            have := congrArg (fun z => z.tail.head?) hr
            simp at this
          | cons b bs =>
            rw [hX] at hlen
            simp at hlen
    have hfind : (findRe.run (trim (toLowerCase
        ("find ".toList ++ (item ++ (" under ".toList ++ n))))) {}).head? =
        some ([], (({} : Caps).set .item (toLowerCase item)).set .max n) := by
      rw [hlow, trim_tight hT, findRe_run hme2]
      exact searchTail_under _ hne (isDot_of_not_lineTerminator hline) hn hdig2
    unfold parseCommand
    rw [if_neg (by simp)]
    simp only [exec_of_first hfind, Option.orElse]
    simp [itemOf, maxPriceOf, Caps.set, hn]
  · intro hne hline hme hno
    obtain ⟨l, r, hX, hl, ht⟩ := trim_lit_phrase "find ".toList
      (toLowerCase item) ⟨'f', "ind ".toList, rfl, by decide⟩ hne
    have hT : Tight (trim (toLowerCase item)) := trim_tight_of _
    have hlow : trim (toLowerCase ("find ".toList ++ item)) =
        "find".toList ++ (' ' :: (l ++ trim (toLowerCase item))) := by
      rw [toLowerCase_append]
      exact ht
    have hme2 : ¬ "me ".toList <+: l ++ trim (toLowerCase item) := by
      intro hp
      apply hme
      rw [hX]
      exact hp.trans (List.prefix_append _ _)
    have hsub : ∀ ch ∈ l ++ trim (toLowerCase item), isDot ch = true := by
      intro ch hch
      apply isDot_of_not_lineTerminator hline
      rw [hX]
      exact List.mem_append_left _ hch
    have hno2 : ¬ ∃ pre d, l ++ trim (toLowerCase item) = pre ++ (" under ".toList ++ d) ∧
        d ≠ [] ∧ d.all isDigit = true := by
      rintro ⟨pre, d, hpd, hd1, hd2⟩
      apply hno
      refine ⟨"find ".toList ++ pre, d, hd1, hd2, ?_⟩
      rw [hlow, hpd]
      rfl
    have hfind : (findRe.run (trim (toLowerCase ("find ".toList ++ item))) {}).head? =
        some ([], ({} : Caps).set .item (l ++ trim (toLowerCase item))) := by
      rw [hlow, findRe_run hme2]
      exact searchTail_plain _ (by simp [hne]) hsub hno2
    have hitem : trim (l ++ trim (toLowerCase item)) = trim (toLowerCase item) := by
      have := trim_unique (l := l) (m := trim (toLowerCase item)) (r := []) hl (by simp) hT
      simpa using this
    unfold parseCommand
    rw [if_neg (by simp)]
    simp only [exec_of_first hfind, Option.orElse]
    simp [itemOf, maxPriceOf, Caps.set, hitem]
  · intro text it v h
    rcases parseCommand_cases text with ⟨m, hm, hc⟩ | ⟨m, -, hc⟩ | ⟨m, -, hc⟩ | ⟨m, -, hc⟩ |
      ⟨m, -, hc⟩ | hc
    · rw [h] at hc
      simp only [Command.search.injEq] at hc
      obtain ⟨d, hd, hdne, hv⟩ := maxPriceOf_eq_some hc.2.symm
      rcases hm with hm | hm
      · obtain ⟨x, hx, rfl⟩ := mem_of_exec hm
        obtain ⟨pre, hpre, h1, h2⟩ := findRe_max hx hd
        exact ⟨pre, d, h1, h2, hpre, fun _ => hv⟩
      · obtain ⟨x, hx, rfl⟩ := mem_of_exec hm
        obtain ⟨pre, hpre, h1, h2⟩ := searchRe_max hx hd
        exact ⟨pre, d, h1, h2, hpre, fun _ => hv⟩
    all_goals
      rw [h] at hc
      cases hc

/-- C3, the claim as stated fails: on "find Toothpaste under 5" the item
returned is "toothpaste", not "Toothpaste"; on "find me milk under 5" it is
"milk", not "me milk"; and "find milk under 5 ", which ends with a space and
not with a price clause, still has maxPrice 5. -/
theorem parseCommand_find_counterexample :
    parseCommand ("find ".toList ++ ("Toothpaste".toList ++ (" under ".toList ++ "5".toList))) =
      .search "toothpaste".toList (some 5) ∧
    parseCommand ("find ".toList ++ ("Toothpaste".toList ++ (" under ".toList ++ "5".toList))) ≠
      .search "Toothpaste".toList (some 5) ∧
    parseCommand ("find ".toList ++ ("me milk".toList ++ (" under ".toList ++ "5".toList))) =
      .search "milk".toList (some 5) ∧
    parseCommand ("find ".toList ++ "milk under 5 ".toList) = .search "milk".toList (some 5) := by
  decide

/-- C3, instances: "find Toothpaste under 5" and "find Brown Bread". -/
theorem parseCommand_find_witness :
    parseCommand ("find ".toList ++ ("Toothpaste".toList ++ (" under ".toList ++ "5".toList))) =
      .search (trim (toLowerCase "Toothpaste".toList)) (some (digitsValue 0 "5".toList : Int)) ∧
    parseCommand ("find ".toList ++ "Brown Bread".toList) =
      .search (trim (toLowerCase "Brown Bread".toList)) none ∧
    (∃ pre d, d ≠ [] ∧ d.all isDigit = true ∧
      trim (toLowerCase "look for soap under 30".toList) = pre ++ (" under ".toList ++ d) ∧
      (digitsValue 0 d ≤ maxExact → (30 : Int) = (digitsValue 0 d : Int))) :=
  ⟨(parseCommand_find "Toothpaste".toList "5".toList).1 (by decide) (by decide) (by decide)
      (by decide) (by decide) (by decide),
    (parseCommand_find "Brown Bread".toList []).2.1 (by decide) (by decide) (by decide)
      (no_under_of_last (c := 'd') (by decide) (by decide)),
    (parseCommand_find [] []).2.2 "look for soap under 30".toList "soap".toList 30 (by decide)⟩

/-- C6, as the code has it: whenever `parseCommand` returns an add or a modify
command, its quantity is an integer that is at least 1, except that it is 0
when the quantity token is a run of digits of value zero, which can only
happen for a text containing the digit 0. -/
theorem parseCommand_qty_range (text : Str) (q : Int)
    (h : (parseCommand text).qty? = some q) : 1 ≤ q ∨ (q = 0 ∧ '0' ∈ text) := by
  rcases parseCommand_cases text with ⟨m, hm, hc⟩ | ⟨m, hm, hc⟩ | ⟨m, hm, hc⟩ | ⟨m, hm, hc⟩ |
    ⟨m, hm, hc⟩ | hc
  · rw [hc] at h
    simp [Command.qty?] at h
  · rw [hc] at h
    simp only [Command.qty?, Option.some.injEq] at h
    subst h
    exact toNumber_range addRe_qtyGroups hm
  · rw [hc] at h
    simp [Command.qty?] at h
  · rw [hc] at h
    simp only [Command.qty?, Option.some.injEq] at h
    subst h
    exact toNumber_range modifyRe_qtyGroups hm
  · rw [hc] at h
    simp only [Command.qty?, Option.some.injEq] at h
    subst h
    exact toNumber_range nounRe_qtyGroups hm
  · rw [hc] at h
    simp [Command.qty?] at h

/-- C6, the claim as stated fails: "add 0 apples" is an add command with
quantity 0 and "set milk to 0" a modify command with quantity 0. -/
theorem parseCommand_qty_range_counterexample :
    parseCommand "add 0 apples".toList = .add "apples".toList 0 ∧
    parseCommand "set milk to 0".toList = .modify "milk".toList 0 ∧
    ¬ ((1 : Int) ≤ 0) := by
  decide

/-- C6, two instances: "buy three milk" and "update rice to 00". -/
theorem parseCommand_qty_range_witness :
    ((parseCommand "buy three milk".toList).qty? = some 3 ∧
      ((1 : Int) ≤ 3 ∨ ((3 : Int) = 0 ∧ '0' ∈ "buy three milk".toList))) ∧
    ((parseCommand "update rice to 00".toList).qty? = some 0 ∧
      ((1 : Int) ≤ 0 ∨ ((0 : Int) = 0 ∧ '0' ∈ "update rice to 00".toList))) :=
  ⟨⟨by decide, parseCommand_qty_range "buy three milk".toList 3 (by decide)⟩,
    ⟨by decide, parseCommand_qty_range "update rice to 00".toList 0 (by decide)⟩⟩

/-- C7, as the code has it: the item phrase of every add, remove, modify or
search command is a substring of the lower-cased utterance and is itself in
lower case; no casing of the utterance is kept. -/
theorem parseCommand_item_lower (text item : Str)
    (h : (parseCommand text).item? = some item) :
    item <:+: toLowerCase text ∧ toLowerCase item = item := by
  have hin : item <:+: toLowerCase text :=
    List.IsInfix.trans (parseCommand_item_within h) (trim_within _)
  refine ⟨hin, toLowerCase_fixed ?_⟩
  intro ch hch
  have hmem : ch ∈ toLowerCase text := hin.subset hch
  simp only [toLowerCase, List.mem_map] at hmem
  obtain ⟨c, -, rfl⟩ := hmem
  exact toLowerChar_idem c

/-- C7, the claim as stated fails: for "add Whole Milk" the item is
"whole milk", not "Whole Milk". -/
theorem parseCommand_item_lower_counterexample :
    (parseCommand "add Whole Milk".toList).item? = some "whole milk".toList ∧
    (parseCommand "add Whole Milk".toList).item? ≠ some "Whole Milk".toList := by
  decide

/-- C7, an instance: "Remove Brown Bread" gives the item "brown bread". -/
theorem parseCommand_item_lower_witness :
    (parseCommand "Remove Brown Bread".toList).item? = some "brown bread".toList ∧
    "brown bread".toList <:+: toLowerCase "Remove Brown Bread".toList ∧
    toLowerCase "brown bread".toList = "brown bread".toList :=
  ⟨by decide,
    parseCommand_item_lower "Remove Brown Bread".toList "brown bread".toList (by decide)⟩

/-- C5, an instance: "hello world" begins with no command verb. -/
theorem parseCommand_unknown_witness :
    (∀ v ∈ commandVerbs, ¬ v <+: trim (toLowerCase "hello world".toList)) ∧
    parseCommand "hello world".toList = .unknown :=
  ⟨by decide, (parseCommand_unknown "hello world".toList).2.1 (by decide)⟩

/-! ## Claims on `categorize` and `addItem` -/

/-- C8: on the utterance "add 2 bottles of water" the leading-verb pattern of
line 27 matches first, so `parseCommand` returns the item "bottles of water"
with quantity 2; the unit words are not removed. -/
theorem parseCommand_bottles_of_water :
    parseCommand "add 2 bottles of water".toList = .add "bottles of water".toList 2 ∧
    ((nounRe.exec "add 2 bottles of water".toList).map itemOf) = some "water".toList := by
  decide

/-- C9: `categorize` returns the first category of the table, in the order
Dairy, Produce, Bakery, Snacks, Beverages, Household, one of whose keywords
occurs in the lower-cased name, and it returns "Other" exactly when no keyword
of any category occurs; "Whole Milk" is Dairy and "Rubber Duck" is Other. -/
theorem categorize_first_match (item : Str) :
    (∀ pre e post, categoryMap = pre ++ e :: post →
      (∀ x ∈ pre, ∀ k ∈ x.2, ¬ k <:+: toLowerCase item) →
      (∃ k ∈ e.2, k <:+: toLowerCase item) → categorize item = e.1) ∧
    (categorize item = "Other".toList ↔
      ∀ e ∈ categoryMap, ∀ k ∈ e.2, ¬ k <:+: toLowerCase item) ∧
    categoryMap.map (fun e => e.1) =
      ["Dairy".toList, "Produce".toList, "Bakery".toList, "Snacks".toList,
        "Beverages".toList, "Household".toList] ∧
    categorize "Whole Milk".toList = "Dairy".toList ∧
    categorize "Rubber Duck".toList = "Other".toList := by
  refine ⟨?_, ?_, by decide, by decide, by decide⟩
  · intro pre e post hmap hpre he
    unfold categorize
    rw [hmap]
    exact categorizeLoop_first _ pre e post hpre he
  · unfold categorize
    exact categorizeLoop_other _ _ (by decide)

/-- C10: when some entry has the normalized name (ignoring case), `addItem`
adds `qty` to the quantity of the first such entry and changes nothing else
(length, order, names, categories and all other entries stay); otherwise it
appends the one entry made of the normalized name, `qty` and the category of
that name.  Adding "Apples" 2 and then "apples" 3 to the empty list gives the
single entry "Apples" with quantity 5. -/
theorem addItem_merge_or_append (prev : List Entry) (rawName : Str) (qty : Int) :
    ((∃ x ∈ prev, sameName (normalizeName rawName) x = true) →
      ∃ pre e post, prev = pre ++ e :: post ∧
        (∀ x ∈ pre, sameName (normalizeName rawName) x = false) ∧
        sameName (normalizeName rawName) e = true ∧
        addItem prev rawName qty =
          pre ++ { name := e.name, qty := e.qty + qty, category := e.category } :: post) ∧
    ((∀ x ∈ prev, sameName (normalizeName rawName) x = false) →
      addItem prev rawName qty =
        prev ++ [{ name := normalizeName rawName, qty := qty,
                   category := categorize (normalizeName rawName) }]) ∧
    addItem (addItem [] "Apples".toList 2) "apples".toList 3 =
      [{ name := "Apples".toList, qty := 5, category := "Produce".toList }] := by
  refine ⟨?_, ?_, by decide⟩
  · intro h
    obtain ⟨pre, e, post, hl, hpre, he, hidx⟩ := findIndex_first _ prev h
    refine ⟨pre, e, post, hl, hpre, he, ?_⟩
    unfold addItem
    simp only [hidx]
    rw [hl, modify_length_append]
  · intro h
    unfold addItem
    simp only [(findIndex_eq_none _ prev).mpr h]

/-- C9, an instance: in "Apple Juice" the Produce keyword "apple" comes before
the Beverages keyword "juice". -/
theorem categorize_first_match_witness :
    (∃ k ∈ (categoryMap.get ⟨1, by decide⟩).2, k <:+: toLowerCase "Apple Juice".toList) ∧
    categorize "Apple Juice".toList = "Produce".toList :=
  ⟨by decide,
    (categorize_first_match "Apple Juice".toList).1 (categoryMap.take 1)
      (categoryMap.get ⟨1, by decide⟩) (categoryMap.drop 2) (by decide) (by decide) (by decide)⟩

/-- C10, two instances: a first "Apples" is appended to the empty list, and
"apples" is merged into a list that already has "Apples". -/
theorem addItem_merge_or_append_witness :
    addItem [] "Apples".toList 2 =
      [] ++ [{ name := normalizeName "Apples".toList, qty := 2,
               category := categorize (normalizeName "Apples".toList) }] ∧
    (∃ pre e post,
      [({ name := "Milk".toList, qty := 1, category := "Dairy".toList } : Entry),
        { name := "Apples".toList, qty := 2, category := "Produce".toList }] =
          pre ++ e :: post ∧
      (∀ x ∈ pre, sameName (normalizeName "apples".toList) x = false) ∧
      sameName (normalizeName "apples".toList) e = true ∧
      addItem [{ name := "Milk".toList, qty := 1, category := "Dairy".toList },
        { name := "Apples".toList, qty := 2, category := "Produce".toList }] "apples".toList 3 =
        pre ++ { name := e.name, qty := e.qty + 3, category := e.category } :: post) :=
  ⟨(addItem_merge_or_append [] "Apples".toList 2).2.1 (by decide),
    (addItem_merge_or_append _ "apples".toList 3).1 (by decide)⟩

/-! ## Lemmas on the list operations -/

theorem map_modify_same {β : Type} (f : Entry → Entry) (g : Entry → β)
    (h : ∀ e, g (f e) = g e) (n : Nat) (l : List Entry) :
    (List.modify f n l).map g = l.map g := by
  induction l generalizing n with
  | nil => cases n <;> rfl
  | cons a l ih =>
    cases n with
    | zero => simp [List.modify, h]
    | succ n =>
      have := ih n
      simp only [List.modify] at this
      simp [List.modify, this]

theorem mem_modify {f : Entry → Entry} {n : Nat} {l : List Entry} {e : Entry}
    (h : e ∈ List.modify f n l) : e ∈ l ∨ ∃ e0 ∈ l, e = f e0 := by
  induction l generalizing n with
  | nil => cases n <;> simp [List.modify] at h
  | cons a l ih =>
    cases n with
    | zero =>
      simp only [List.modify, List.modifyTailIdx, List.modifyHead, List.mem_cons] at h
      rcases h with h | h
      · exact Or.inr ⟨a, List.mem_cons_self _ _, h⟩
      · exact Or.inl (List.mem_cons_of_mem _ h)
    | succ n =>
      have h2 : e = a ∨ e ∈ List.modify f n l := by
        simpa [List.modify] using h
      rcases h2 with h2 | h2
      · exact Or.inl (by rw [h2]; exact List.mem_cons_self _ _)
      · rcases ih h2 with h3 | ⟨e0, he0, h3⟩
        · exact Or.inl (List.mem_cons_of_mem _ h3)
        · exact Or.inr ⟨e0, List.mem_cons_of_mem _ he0, h3⟩

theorem names_addItem_found {prev : List Entry} {rawName : Str} {qty : Int} {idx : Nat}
    (h : findIndex (sameName (normalizeName rawName)) prev = some idx) :
    (addItem prev rawName qty).map (fun e => toLowerCase e.name) =
      prev.map (fun e => toLowerCase e.name) := by
  unfold addItem
  simp only [h]
  apply map_modify_same
  intro e
  rfl

theorem names_modifyItem (prev : List Entry) (rawName : Str) (qty : Int) :
    (modifyItem prev rawName qty).map (fun e => toLowerCase e.name) =
      prev.map (fun e => toLowerCase e.name) := by
  unfold modifyItem
  cases h : findIndex (sameName (normalizeName rawName)) prev with
  | none => simp only [h]
  | some idx =>
    simp only [h]
    apply map_modify_same
    intro e
    rfl

theorem names_editQty (prev : List Entry) (idx : Nat) (value : Str) :
    (editQty prev idx value).map (fun e => toLowerCase e.name) =
      prev.map (fun e => toLowerCase e.name) := by
  unfold editQty
  apply map_modify_same
  intro e
  rfl

theorem distinct_addItem {prev : List Entry} (h : DistinctNames prev) (rawName : Str)
    (qty : Int) : DistinctNames (addItem prev rawName qty) := by
  unfold DistinctNames at h ⊢
  cases hf : findIndex (sameName (normalizeName rawName)) prev with
  | some idx =>
    rw [names_addItem_found hf]
    exact h
  | none =>
    have hnone := (findIndex_eq_none _ prev).mp hf
    unfold addItem
    simp only [hf, List.map_append, List.map_cons, List.map_nil]
    rw [List.nodup_append]
    refine ⟨h, List.nodup_singleton _, ?_⟩
    intro a ha hb
    simp only [List.mem_singleton] at hb
    simp only [List.mem_map] at ha
    obtain ⟨x, hx, hxa⟩ := ha
    have hs := hnone x hx
    simp only [sameName, beq_eq_false_iff_ne, ne_eq] at hs
    apply hs
    rw [hxa, hb]

theorem distinct_removeItem {prev : List Entry} (h : DistinctNames prev) (rawName : Str) :
    DistinctNames (removeItem prev rawName) := by
  unfold DistinctNames at h ⊢
  unfold removeItem
  exact h.sublist ((List.filter_sublist _).map _)

theorem distinct_apply {l : List Entry} (h : DistinctNames l) (op : ListOp) :
    DistinctNames (op.apply l) := by
  cases op with
  | add rawName qty => exact distinct_addItem h rawName qty
  | remove rawName => exact distinct_removeItem h rawName
  | modify rawName qty =>
    unfold DistinctNames at h ⊢
    show ((modifyItem l rawName qty).map _).Nodup
    rw [names_modifyItem]
    exact h
  | edit idx value =>
    unfold DistinctNames at h ⊢
    show ((editQty l idx value).map _).Nodup
    rw [names_editQty]
    exact h

theorem distinct_foldl (ops : List ListOp) : ∀ l, DistinctNames l →
    DistinctNames (ops.foldl ListOp.apply l) := by
  induction ops with
  | nil => exact fun l h => h
  | cons op ops ih => exact fun l h => ih _ (distinct_apply h op)

/-- The quantity of a returned add or modify command is at least 1 or is 0. -/
theorem parseCommand_qty_cases {text : Str} {q : Int}
    (h : (parseCommand text).qty? = some q) : 1 ≤ q ∨ q = 0 := by
  rcases parseCommand_cases text with ⟨m, hm, hc⟩ | ⟨m, hm, hc⟩ | ⟨m, hm, hc⟩ | ⟨m, hm, hc⟩ |
    ⟨m, hm, hc⟩ | hc
  · rw [hc] at h
    simp [Command.qty?] at h
  · rw [hc] at h
    simp only [Command.qty?, Option.some.injEq] at h
    subst h
    exact (toNumber_range addRe_qtyGroups hm).imp id (fun h0 => h0.1)
  · rw [hc] at h
    simp [Command.qty?] at h
  · rw [hc] at h
    simp only [Command.qty?, Option.some.injEq] at h
    subst h
    exact (toNumber_range modifyRe_qtyGroups hm).imp id (fun h0 => h0.1)
  · rw [hc] at h
    simp only [Command.qty?, Option.some.injEq] at h
    subst h
    exact (toNumber_range nounRe_qtyGroups hm).imp id (fun h0 => h0.1)
  · rw [hc] at h
    simp [Command.qty?] at h

theorem orOne_pos {q : Int} (h : 1 ≤ q ∨ q = 0) : 1 ≤ orOne q := by
  unfold orOne
  rcases h with h | h
  · have : q ≠ 0 := by omega
    rw [if_neg this]
    exact h
  · rw [if_pos h]

theorem pos_addItem {l : List Entry} (hl : ∀ e ∈ l, 1 ≤ e.qty) (rawName : Str) {qty : Int}
    (hq : 1 ≤ qty) : ∀ e ∈ addItem l rawName qty, 1 ≤ e.qty := by
  intro e he
  unfold addItem at he
  cases hf : findIndex (sameName (normalizeName rawName)) l with
  | some idx =>
    simp only [hf] at he
    rcases mem_modify he with h | ⟨e0, he0, rfl⟩
    · exact hl e h
    · have := hl e0 he0
      show 1 ≤ e0.qty + qty
      omega
  | none =>
    simp only [hf, List.mem_append, List.mem_singleton] at he
    rcases he with h | rfl
    · exact hl e h
    · exact hq

theorem pos_modifyItem {l : List Entry} (hl : ∀ e ∈ l, 1 ≤ e.qty) (rawName : Str) {qty : Int}
    (hq : 1 ≤ qty) : ∀ e ∈ modifyItem l rawName qty, 1 ≤ e.qty := by
  intro e he
  unfold modifyItem at he
  cases hf : findIndex (sameName (normalizeName rawName)) l with
  | some idx =>
    simp only [hf] at he
    rcases mem_modify he with h | ⟨e0, -, rfl⟩
    · exact hl e h
    · exact hq
  | none =>
    simp only [hf] at he
    exact hl e he

theorem pos_removeItem {l : List Entry} (hl : ∀ e ∈ l, 1 ≤ e.qty) (rawName : Str) :
    ∀ e ∈ removeItem l rawName, 1 ≤ e.qty := by
  intro e he
  unfold removeItem at he
  exact hl e (List.mem_of_mem_filter he)

theorem pos_handleText (catalog : List Product) {s : AppState}
    (hl : ∀ e ∈ s.list, 1 ≤ e.qty) (text : Str) :
    ∀ e ∈ (App.handleText catalog s text).list, 1 ≤ e.qty := by
  unfold App.handleText
  cases hc : parseCommand text with
  | add item q =>
    have hq : 1 ≤ orOne q := orOne_pos (parseCommand_qty_cases (by rw [hc]; rfl))
    exact pos_addItem hl item hq
  | remove item => exact pos_removeItem hl item
  | modify item q =>
    have hq : 1 ≤ orOne q := orOne_pos (parseCommand_qty_cases (by rw [hc]; rfl))
    exact pos_modifyItem hl item hq
  | search item maxPrice => exact hl
  | unknown => exact hl

theorem pos_apply (catalog : List Product) {s : AppState}
    (hl : ∀ e ∈ s.list, 1 ≤ e.qty) (ev : UiEvent) :
    ∀ e ∈ (ev.apply catalog s).list, 1 ≤ e.qty := by
  cases ev with
  | utterance text => exact pos_handleText catalog hl text
  | suggestion name => exact pos_addItem hl name (by decide)
  | plusOne idx =>
    simp only [UiEvent.apply]
    cases hg : s.list.get? idx with
    | none => exact hl
    | some it =>
      have hit : 1 ≤ it.qty := hl it (List.get?_mem hg)
      exact pos_modifyItem hl it.name (by omega)
  | minusOne idx =>
    simp only [UiEvent.apply]
    cases hg : s.list.get? idx with
    | none => exact hl
    | some it => exact pos_modifyItem hl it.name (le_max_left _ _)

theorem pos_foldl (catalog : List Product) (events : List UiEvent) : ∀ s : AppState,
    (∀ e ∈ s.list, 1 ≤ e.qty) →
    ∀ e ∈ (events.foldl (UiEvent.apply catalog) s).list, 1 ≤ e.qty := by
  induction events with
  | nil => exact fun s h => h
  | cons ev events ih => exact fun s h => ih _ (pos_apply catalog h ev)

theorem findIndex_modify {f : Entry → Entry} (p : Entry → Bool) (h : ∀ e, p (f e) = p e)
    (n : Nat) (l : List Entry) : findIndex p (List.modify f n l) = findIndex p l := by
  induction l generalizing n with
  | nil => cases n <;> rfl
  | cons a l ih =>
    cases n with
    | zero => simp [List.modify, findIndex, h]
    | succ n =>
      have := ih n
      simp only [List.modify] at this
      simp [List.modify, findIndex, this]

theorem modify_modify_same {f : Entry → Entry} (h : ∀ e, f (f e) = f e) (n : Nat)
    (l : List Entry) : List.modify f n (List.modify f n l) = List.modify f n l := by
  induction l generalizing n with
  | nil => cases n <;> rfl
  | cons a l ih =>
    cases n with
    | zero => simp [List.modify, h]
    | succ n =>
      have := ih n
      simp only [List.modify] at this
      simp [List.modify, this]

theorem modifyItem_twice (l : List Entry) (rawName : Str) (q : Int) :
    modifyItem (modifyItem l rawName q) rawName q = modifyItem l rawName q := by
  cases hf : findIndex (sameName (normalizeName rawName)) l with
  | none =>
    have e : modifyItem l rawName q = l := by
      unfold modifyItem
      simp only [hf]
    rw [e, e]
  | some idx =>
    have e : modifyItem l rawName q =
        List.modify (fun e => { e with qty := q }) idx l := by
      unfold modifyItem
      simp only [hf]
    have hf2 : findIndex (sameName (normalizeName rawName))
        (List.modify (fun e => { e with qty := q }) idx l) = some idx := by
      have hk := findIndex_modify (f := fun e => { e with qty := q })
        (sameName (normalizeName rawName)) (fun _ => rfl) idx l
      rw [hk, hf]
    rw [e]
    conv_lhs => unfold modifyItem
    simp only [hf2]
    apply modify_modify_same
    intro x
    rfl

theorem modifyItem_first {l : List Entry} {rawName : Str} (q : Int)
    (h : ∃ x ∈ l, sameName (normalizeName rawName) x = true) :
    ∃ pre e post, l = pre ++ e :: post ∧
      (∀ x ∈ pre, sameName (normalizeName rawName) x = false) ∧
      sameName (normalizeName rawName) e = true ∧
      modifyItem l rawName q =
        pre ++ { name := e.name, qty := q, category := e.category } :: post := by
  obtain ⟨pre, e, post, hl, hpre, he, hidx⟩ := findIndex_first _ l h
  refine ⟨pre, e, post, hl, hpre, he, ?_⟩
  unfold modifyItem
  simp only [hidx]
  rw [hl, modify_length_append]

/-! ## Lemmas on the suggestions -/

theorem mem_bump {k : Str} {m : List (Str × Nat)} {e : Str × Nat} (h : e ∈ bump k m) :
    e.1 = k ∨ ∃ e0 ∈ m, e0.1 = e.1 := by
  induction m with
  | nil =>
    simp only [bump, List.mem_singleton] at h
    exact Or.inl (by rw [h])
  | cons a m ih =>
    by_cases ha : a.1 = k
    · simp only [bump, ha, if_true, List.mem_cons] at h
      rcases h with h | h
      · exact Or.inl (by rw [h])
      · exact Or.inr ⟨e, List.mem_cons_of_mem _ h, rfl⟩
    · simp only [bump, ha, if_false, List.mem_cons] at h
      rcases h with h | h
      · exact Or.inr ⟨a, List.mem_cons_self _ _, by rw [h]⟩
      · rcases ih h with h2 | ⟨e0, he0, h2⟩
        · exact Or.inl h2
        · exact Or.inr ⟨e0, List.mem_cons_of_mem _ he0, h2⟩

theorem keys_foldl_bump (Q : Str → Prop) (history : List Str) :
    ∀ m : List (Str × Nat), (∀ e ∈ m, Q e.1) → (∀ n ∈ history, Q (toLowerCase n)) →
    ∀ e ∈ history.foldl (fun m n => bump (toLowerCase n) m) m, Q e.1 := by
  induction history with
  | nil => exact fun m hm _ => hm
  | cons n history ih =>
    intro m hm hh
    apply ih
    · intro e he
      rcases mem_bump he with h | ⟨e0, he0, h⟩
      · rw [h]
        exact hh n (List.mem_cons_self _ _)
      · rw [← h]
        exact hm e0 he0
    · exact fun n2 hn2 => hh n2 (List.mem_cons_of_mem _ hn2)

theorem mem_insertDesc {a e : Str × Nat} {l : List (Str × Nat)} (h : e ∈ insertDesc a l) :
    e = a ∨ e ∈ l := by
  induction l with
  | nil =>
    simp only [insertDesc, List.mem_singleton] at h
    exact Or.inl h
  | cons b l ih =>
    by_cases hb : b.2 ≤ a.2
    · simpa [insertDesc, hb] using h
    · simp only [insertDesc, hb, if_false, List.mem_cons] at h
      rcases h with h | h
      · exact Or.inr (by rw [h]; exact List.mem_cons_self _ _)
      · rcases ih h with h2 | h2
        · exact Or.inl h2
        · exact Or.inr (List.mem_cons_of_mem _ h2)

theorem mem_sortDesc {e : Str × Nat} {l : List (Str × Nat)} (h : e ∈ sortDesc l) : e ∈ l := by
  induction l with
  | nil => exact h
  | cons a l ih =>
    rcases mem_insertDesc h with h2 | h2
    · rw [h2]
      exact List.mem_cons_self _ _
    · exact List.mem_cons_of_mem _ (ih h2)

/-- Every name of `freq` is the lower-cased form of a name of the history. -/
theorem freq_keys (Q : Str → Prop) (history : List Str)
    (hh : ∀ n ∈ history, Q (toLowerCase n)) : ∀ k ∈ freq history, Q k := by
  intro k hk
  simp only [freq, List.mem_map] at hk
  obtain ⟨e, he, rfl⟩ := hk
  have h1 : e ∈ countNames history := mem_sortDesc (List.mem_of_mem_take he)
  exact keys_foldl_bump Q history [] (by intro e he; cases he) hh e h1

theorem freq_length (history : List Str) : (freq history).length ≤ 6 := by
  simp only [freq, List.length_map, List.length_take]
  exact Nat.min_le_left _ _

theorem mem_setOf {x : Str} {l : List Str} (h : x ∈ setOf l) : x ∈ l := by
  induction l with
  | nil => exact h
  | cons a l ih =>
    simp only [setOf, List.mem_cons] at h
    rcases h with h | h
    · rw [h]
      exact List.mem_cons_self _ _
    · exact List.mem_cons_of_mem _ (ih (List.mem_of_mem_filter h))

theorem setOf_length (l : List Str) : (setOf l).length ≤ l.length := by
  induction l with
  | nil => exact Nat.le_refl _
  | cons a l ih =>
    simp only [setOf, List.length_cons]
    exact Nat.succ_le_succ (Nat.le_trans (List.length_filter_le _ _) ih)

theorem setOf_nodup (l : List Str) : (setOf l).Nodup := by
  induction l with
  | nil => exact List.nodup_nil
  | cons a l ih =>
    simp only [setOf]
    rw [List.nodup_cons]
    refine ⟨?_, ih.filter _⟩
    intro h
    have := List.of_mem_filter h
    simp at this

theorem toUpperChar_toNat (c : Char) :
    (toUpperChar c).toNat = if 97 ≤ c.toNat ∧ c.toNat ≤ 122 then c.toNat - 32 else c.toNat := by
  unfold toUpperChar
  split
  · rename_i h
    exact toNat_ofNat_small _ (by omega)
  · rfl

/-- Capitalising a lower-case character and lower-casing it again gives the
character back. -/
theorem toLowerChar_toUpperChar {c : Char} (h : toLowerChar c = c) :
    toLowerChar (toUpperChar c) = c := by
  by_cases hc : 97 ≤ c.toNat ∧ c.toNat ≤ 122
  · have hu := toUpperChar_toNat c
    rw [if_pos hc] at hu
    have hup : 65 ≤ (toUpperChar c).toNat ∧ (toUpperChar c).toNat ≤ 90 := by
      rw [hu]
      omega
    unfold toLowerChar
    rw [if_pos hup, hu]
    have e : c.toNat - 32 + 32 = c.toNat := by omega
    rw [e]
    exact Char.ofNat_toNat c
  · have e : toUpperChar c = c := by
      unfold toUpperChar
      rw [if_neg hc]
    rw [e]
    exact h

theorem capitalizeAll_length (up : Char → Str) {l l2 : List Str}
    (h : capitalizeAll up l = some l2) : l2.length = l.length := by
  induction l generalizing l2 with
  | nil =>
    simp only [capitalizeAll, Option.some.injEq] at h
    rw [← h]
  | cons n l ih =>
    cases n with
    | nil => simp [capitalizeAll, capitalize] at h
    | cons c rest =>
      cases hr : capitalizeAll up l with
      | none => simp [capitalizeAll, capitalize, hr] at h
      | some cs =>
        simp only [capitalizeAll, capitalize, hr, Option.map_some', Option.some.injEq] at h
        rw [← h, List.length_cons, List.length_cons, ih hr]

/-- On lower-case names that start with an ASCII character, lower-casing the
capitalised names gives the names back. -/
theorem capitalizeAll_lower (up : Char → Str) {l l2 : List Str}
    (h : capitalizeAll up l = some l2) (hl : ∀ n ∈ l, toLowerCase n = n)
    (ha : ∀ n ∈ l, ∀ c ∈ n, c.toNat < 128) : l2.map toLowerCase = l := by
  induction l generalizing l2 with
  | nil =>
    simp only [capitalizeAll, Option.some.injEq] at h
    rw [← h]
    rfl
  | cons n l ih =>
    cases n with
    | nil => simp [capitalizeAll, capitalize] at h
    | cons c rest =>
      cases hr : capitalizeAll up l with
      | none => simp [capitalizeAll, capitalize, hr] at h
      | some cs =>
        have hc : c.toNat < 128 :=
          ha (c :: rest) (List.mem_cons_self _ _) c (List.mem_cons_self _ _)
        simp only [capitalizeAll, capitalize, upperFirst, hc, if_true, hr, Option.map_some',
          Option.some.injEq, List.singleton_append] at h
        rw [← h]
        have hn := hl (c :: rest) (List.mem_cons_self _ _)
        simp only [toLowerCase, List.map_cons, List.cons.injEq] at hn
        have ih2 := ih hr (fun n hn2 => hl n (List.mem_cons_of_mem _ hn2))
          (fun n hn2 => ha n (List.mem_cons_of_mem _ hn2))
        simp only [List.map_cons, toLowerCase, ih2, List.cons.injEq, and_true]
        exact ⟨toLowerChar_toUpperChar hn.1, hn.2⟩

theorem capitalizeAll_some (up : Char → Str) {l : List Str} (hl : ∀ n ∈ l, n ≠ []) :
    ∃ l2, capitalizeAll up l = some l2 := by
  induction l with
  | nil => exact ⟨[], rfl⟩
  | cons n l ih =>
    obtain ⟨cs, hcs⟩ := ih (fun n hn => hl n (List.mem_cons_of_mem _ hn))
    cases n with
    | nil => exact absurd rfl (hl [] (List.mem_cons_self _ _))
    | cons c rest =>
      exact ⟨(upperFirst up c ++ rest) :: cs, by simp [capitalizeAll, capitalize, hcs]⟩

theorem toLowerChar_ascii {c : Char} (h : c.toNat < 128) : (toLowerChar c).toNat < 128 := by
  rw [toLowerChar_toNat]
  split <;> omega

theorem toLowerCase_ascii {n : Str} (h : ∀ c ∈ n, c.toNat < 128) :
    ∀ c ∈ toLowerCase n, c.toNat < 128 := by
  intro c hc
  simp only [toLowerCase, List.mem_map] at hc
  obtain ⟨d, hd, rfl⟩ := hc
  exact toLowerChar_ascii (h d hd)

theorem toLowerCase_ne_nil {n : Str} (h : n ≠ []) : toLowerCase n ≠ [] := by
  cases n with
  | nil => exact absurd rfl h
  | cons c rest => simp [toLowerCase]

/-! ## The leading-verb add pattern and the fallback -/

theorem mem_seq_intro {a b : Re} {s : Str} {c : Caps} {y x : Str × Caps}
    (hy : y ∈ a.run s c) (hx : x ∈ b.run y.1 y.2) : x ∈ (Re.seq a b).run s c := by
  simp only [Re.run, List.mem_flatMap]
  exact ⟨y, hy, hx⟩

theorem mem_of_first {l : List (Str × Caps)} {x : Str × Caps} (h : l.head? = some x) :
    x ∈ l := by
  cases l with
  | nil => simp at h
  | cons a l =>
    simp only [List.head?_cons, Option.some.injEq] at h
    rw [h]
    exact List.mem_cons_self _ _

theorem lineTerminator_lower (c : Char) (h : isLineTerminator c = false) :
    isLineTerminator (toLowerChar c) = false := by
  by_cases hc : 65 ≤ c.toNat ∧ c.toNat ≤ 90
  · have hn := toLowerChar_toNat c
    rw [if_pos hc] at hn
    rw [Bool.eq_false_iff]
    intro hl
    simp only [isLineTerminator, Bool.or_eq_true, beq_iff_eq] at hl
    omega
  · rw [toLowerChar_of_not_upper hc]
    exact h

theorem no_lineTerminator_trim_lower {text : Str}
    (h : ∀ ch ∈ text, isLineTerminator ch = false) :
    ∀ ch ∈ trim (toLowerCase text), isLineTerminator ch = false := by
  intro ch hch
  have h1 : ch ∈ toLowerCase text := trim_sub _ _ hch
  simp only [toLowerCase, List.mem_map] at h1
  obtain ⟨c, hc, rfl⟩ := h1
  exact lineTerminator_lower c (h c hc)

/-- The leading-verb add pattern matches every tight text without line
terminators that starts with "add" or "buy" and a white-space character. -/
theorem addRe_matches {t verb rest : Str} {w : Char}
    (hv : verb = "add".toList ∨ verb = "buy".toList) (ht : t = verb ++ w :: rest)
    (hw : isWhiteSpace w = true) (hT : Tight t)
    (hline : ∀ ch ∈ t, isLineTerminator ch = false) : ∃ m, addRe.exec t = some m := by
  have hr : rest.dropWhile isWhiteSpace ≠ [] := by
    intro h0
    have hall : ∀ ch ∈ w :: rest, isWhiteSpace ch = true := by
      intro ch hch
      rcases List.mem_cons.mp hch with rfl | hch
      · exact hw
      · exact List.dropWhile_eq_nil_iff.mp h0 ch hch
    have hlast : t.getLast? = (w :: rest).getLast? := by
      rw [ht, List.getLast?_append_of_ne_nil _ (by simp)]
    cases hg : (w :: rest).getLast? with
    | none => simp at hg
    | some c =>
      have hc := hall c (List.mem_of_getLast?_eq_some hg)
      have := hT.2 c (by rw [hlast, hg])
      rw [hc] at this
      exact absurd this (by simp)
  have hsub : ∀ ch ∈ rest.dropWhile isWhiteSpace, isDot ch = true := by
    intro ch hch
    apply isDot_of_not_lineTerminator hline
    rw [ht]
    exact List.mem_append_right _
      (List.mem_cons_of_mem _ ((List.dropWhile_suffix isWhiteSpace).subset hch))
  have h1 : ((w :: rest, {}) : Str × Caps) ∈
      (Re.alts [L "add", L "buy", L "i need", L "i want to buy", L "put",
        L "include"]).run t {} := by
    rw [ht]
    simp only [Re.alts]
    rcases hv with rfl | rfl
    · apply mem_of_first
      apply first_alt_left
      exact congrArg List.head? (run_lit_append "add".toList _ {})
    · have na : ¬ "add".toList <+: ("buy".toList ++ w :: rest) :=
        not_starts_of_head rfl rfl (by decide)
      rw [run_alt_right _ (run_L_nil _ na)]
      apply mem_of_first
      apply first_alt_left
      exact congrArg List.head? (run_lit_append "buy".toList _ {})
  have h2 : ((rest.dropWhile isWhiteSpace, {}) : Str × Caps) ∈
      (Re.plus isWhiteSpace).run (w :: rest) {} :=
    mem_of_first (first_plus rest {} hw)
  have h3 : ((rest.dropWhile isWhiteSpace, {}) : Str × Caps) ∈
      (Re.opt (.grp .qty qtyRe)).run (rest.dropWhile isWhiteSpace) {} := by
    simp only [Re.run, List.mem_append, List.mem_singleton, or_true]
  have h4 : ((rest.dropWhile isWhiteSpace, {}) : Str × Caps) ∈
      (Re.star isWhiteSpace).run (rest.dropWhile isWhiteSpace) {} := by
    apply mem_of_first
    rw [first_star, List.dropWhile_idempotent]
  have h5 := mem_of_first (first_item_eoi ({} : Caps) hr hsub)
  have hmem : (([], ({} : Caps).set .item (rest.dropWhile isWhiteSpace)) : Str × Caps) ∈
      addRe.run t {} := by
    simp only [addRe, Re.seqs]
    exact mem_seq_intro h1 (mem_seq_intro h2 (mem_seq_intro h3 (mem_seq_intro h4 h5)))
  unfold Re.exec
  cases hrun : addRe.run t {} with
  | nil =>
    rw [hrun] at hmem
    cases hmem
  | cons x xs => exact ⟨x.2, rfl⟩

theorem find_search_nil_of_add_buy {t verb rest : Str}
    (hv : verb = "add".toList ∨ verb = "buy".toList) (ht : t = verb ++ rest) :
    findRe.run t {} = [] ∧ searchRe.run t {} = [] := by
  rcases hv with rfl | rfl
  · rw [ht]
    exact ⟨findRe_nil (not_starts_of_head rfl rfl (by decide)),
      searchRe_nil (not_starts_of_head rfl rfl (by decide))
        (not_starts_of_head rfl rfl (by decide))⟩
  · rw [ht]
    exact ⟨findRe_nil (not_starts_of_head rfl rfl (by decide)),
      searchRe_nil (not_starts_of_head rfl rfl (by decide))
        (not_starts_of_head rfl rfl (by decide))⟩

/-- A match of the fallback pattern starts with "add" or "buy" and at least
one more character. -/
theorem nounRe_shape {t : Str} {m : Caps} (h : nounRe.exec t = some m) :
    ∃ verb c rest, (verb = "add".toList ∨ verb = "buy".toList) ∧ t = verb ++ c :: rest := by
  obtain ⟨x, hx, -⟩ := mem_of_exec h
  simp only [nounRe, Re.seqs, Re.alts] at hx
  obtain ⟨y1, hy1, hx⟩ := mem_run_seq hx
  obtain ⟨y2, hy2, -⟩ := mem_run_seq hx
  obtain ⟨m2, h2⟩ := run_consumes _ _ _ _ hy2
  have hne : y1.1 ≠ [] := by
    intro h0
    rw [h0] at hy2
    simp [Re.run] at hy2
  obtain ⟨c, rest, hc⟩ := List.exists_cons_of_ne_nil hne
  simp only [Re.run, List.mem_append] at hy1
  rcases hy1 with h1 | h1
  · have h3 : y1 ∈ (L "add").run t {} := by simpa only [Re.run] using h1
    exact ⟨"add".toList, c, rest, Or.inl rfl, by rw [(mem_run_lit h3).1, hc]⟩
  · have h3 : y1 ∈ (L "buy").run t {} := by simpa only [Re.run] using h1
    exact ⟨"buy".toList, c, rest, Or.inr rfl, by rw [(mem_run_lit h3).1, hc]⟩

/-! ## Claims on the list, the history and the messages -/

/-- C11: every list reached from the empty list by any sequence of `addItem`,
`removeItem`, `modifyItem` and direct quantity edits has at most one entry per
case-insensitive name: no two entries have names equal after lower-casing. -/
theorem distinct_names_reachable (ops : List ListOp) :
    DistinctNames (ops.foldl ListOp.apply []) :=
  distinct_foldl ops [] List.nodup_nil

/-- C11, an instance: adding "Apples", "apples 2kg" and "Milk", editing a
quantity and removing "MILK" leaves one entry "Apples". -/
theorem distinct_names_reachable_witness :
    [ListOp.add "Apples".toList 2, ListOp.add "apples 2kg".toList 3, ListOp.add "Milk".toList 1,
      ListOp.edit 1 "7".toList, ListOp.remove "MILK".toList].foldl ListOp.apply [] =
      [{ name := "Apples".toList, qty := 5, category := "Produce".toList }] ∧
    DistinctNames ([ListOp.add "Apples".toList 2, ListOp.add "apples 2kg".toList 3,
      ListOp.add "Milk".toList 1, ListOp.edit 1 "7".toList,
      ListOp.remove "MILK".toList].foldl ListOp.apply []) :=
  ⟨by decide, distinct_names_reachable _⟩

/-- C12: for every utterance `handleText` calls `addItem` and `modifyItem`
with `cmd.qty || 1`, which is at least 1, so a quantity 0 is never passed; and
every entry of every list reached from the empty list by utterances,
suggestion clicks and the `+1` and `-1` buttons has a quantity of at least 1. -/
theorem qty_at_least_one (catalog : List Product) (events : List UiEvent) :
    (∀ s text item q, parseCommand text = .add item q →
      App.handleText catalog s text = App.addItem s item (orOne q) ∧ 1 ≤ orOne q) ∧
    (∀ s text item q, parseCommand text = .modify item q →
      App.handleText catalog s text = App.modifyItem s item (orOne q) ∧ 1 ≤ orOne q) ∧
    (∀ e ∈ (events.foldl (UiEvent.apply catalog) {}).list, 1 ≤ e.qty) := by
  refine ⟨?_, ?_, ?_⟩
  · intro s text item q h
    refine ⟨by simp only [App.handleText, h], ?_⟩
    exact orOne_pos (parseCommand_qty_cases (by rw [h]; rfl))
  · intro s text item q h
    refine ⟨by simp only [App.handleText, h], ?_⟩
    exact orOne_pos (parseCommand_qty_cases (by rw [h]; rfl))
  · exact pos_foldl catalog events {} (by intro e he; cases he)

/-- C12, an instance: "add 0 apples" is parsed with quantity 0 and adds one
apple; after a `-1` click the quantity is still 1. -/
theorem qty_at_least_one_witness :
    parseCommand "add 0 apples".toList = .add "apples".toList 0 ∧
    (App.handleText [] {} "add 0 apples".toList = App.addItem {} "apples".toList (orOne 0) ∧
      1 ≤ orOne 0) ∧
    ([UiEvent.utterance "add 0 apples".toList, UiEvent.minusOne 0].foldl
      (UiEvent.apply []) {}).list =
      [{ name := "apples".toList, qty := 1, category := "Produce".toList }] :=
  ⟨by decide, (qty_at_least_one [] []).1 {} "add 0 apples".toList "apples".toList 0 (by decide),
    by decide⟩

/-- C13, where the code throws: the utterance "add 2 5kg" is an add command
for the item "5kg", which `normalizeName` turns into the empty name; the
history becomes `[""]`, and at the next render the suggestions, which read
`n[0].toUpperCase()` of every name, throw on the empty name. -/
theorem dispatch_empty_name_throws (up : Char → Str) (catalog : List Product) :
    parseCommand "add 2 5kg".toList = .add "5kg".toList 2 ∧
    normalizeName "5kg".toList = [] ∧
    (App.handleText catalog {} "add 2 5kg".toList).history = [[]] ∧
    suggestions up [[]] = none ∧
    dispatchAll up catalog {} ["add 2 5kg".toList] = none := by
  have hp : parseCommand "add 2 5kg".toList = .add "5kg".toList 2 := by decide
  have hh : (App.handleText catalog {} "add 2 5kg".toList).history = [[]] := by
    simp only [App.handleText, hp]
    decide
  have hs : suggestions up [[]] = none := rfl
  refine ⟨hp, by decide, hh, hs, ?_⟩
  simp only [dispatchAll, dispatchUtterance, hh, hs]

/-- C14, where the code differs: with a price ceiling `n` other than 0 the
message of `doSearch` is `Search results for "q" under $n.`, and without a
ceiling it is `Search results for "q".`, both with severity ok; but with the
ceiling 0 the message is `Search results for "q".` too, so that
"find milk under 0" reports no price.  "find toothpaste under 5" gives
`Search results for "toothpaste" under $5.`. -/
theorem doSearch_message (catalog : List Product) (s : AppState) (q : Str) :
    (∀ n : Int, n ≠ 0 → (App.doSearch catalog s q (some n)).listMsg =
      some ⟨.ok, "Search results for \"".toList ++ q ++ "\"".toList ++
        (" under $".toList ++ numToString n) ++ ".".toList⟩) ∧
    (App.doSearch catalog s q none).listMsg =
      some ⟨.ok, "Search results for \"".toList ++ q ++ "\"".toList ++ [] ++ ".".toList⟩ ∧
    (App.doSearch catalog s q (some 0)).listMsg =
      some ⟨.ok, "Search results for \"".toList ++ q ++ "\"".toList ++ [] ++ ".".toList⟩ ∧
    (App.handleText catalog s "find toothpaste under 5".toList).listMsg =
      some ⟨.ok, "Search results for \"toothpaste\" under $5.".toList⟩ ∧
    parseCommand "find milk under 0".toList = .search "milk".toList (some 0) ∧
    (App.handleText catalog s "find milk under 0".toList).listMsg =
      some ⟨.ok, "Search results for \"milk\".".toList⟩ := by
  have h5 : parseCommand "find toothpaste under 5".toList =
      .search "toothpaste".toList (some 5) := by decide
  have h0 : parseCommand "find milk under 0".toList = .search "milk".toList (some 0) := by
    decide
  refine ⟨?_, rfl, rfl, ?_, h0, ?_⟩
  · intro n hn
    simp only [App.doSearch, hn, if_false]
  · simp only [App.handleText, h5, App.doSearch]
    decide
  · simp only [App.handleText, h0, App.doSearch]
    decide

/-- C15: for every catalog, query and optional price ceiling, `doSearch` sets
the search results to exactly the catalog products, in catalog order, whose
lower-cased name or lower-cased brand contains the lower-cased query and, when
a ceiling is given, whose price is at most the ceiling; the previous results
play no part. -/
theorem doSearch_results (catalog : List Product) (s : AppState) (q : Str)
    (maxPrice : Option Int) :
    (App.doSearch catalog s q maxPrice).searchResults =
      catalog.filter (fun p =>
        decide (toLowerCase q <:+: toLowerCase p.name ∨ toLowerCase q <:+: toLowerCase p.brand) &&
        maxPrice.all (fun (n : Int) => decide (p.price ≤ (n : Rat)))) ∧
    (App.doSearch catalog s q maxPrice).searchResults.Sublist catalog ∧
    (∀ s2 : AppState, (App.doSearch catalog s2 q maxPrice).searchResults =
      (App.doSearch catalog s q maxPrice).searchResults) := by
  have key : (App.doSearch catalog s q maxPrice).searchResults =
      catalog.filter (fun p =>
        decide (toLowerCase q <:+: toLowerCase p.name ∨ toLowerCase q <:+: toLowerCase p.brand) &&
        maxPrice.all (fun (n : Int) => decide (p.price ≤ (n : Rat)))) := by
    have hinc : ∀ p : Product,
        (includes (toLowerCase p.name) (toLowerCase q) ||
          includes (toLowerCase p.brand) (toLowerCase q)) =
        decide (toLowerCase q <:+: toLowerCase p.name ∨
          toLowerCase q <:+: toLowerCase p.brand) := by
      intro p
      rw [Bool.eq_iff_iff]
      simp only [Bool.or_eq_true, includes_iff, decide_eq_true_eq]
    cases maxPrice with
    | none =>
      simp only [App.doSearch, Option.all_none, Bool.and_true]
      congr 1
      funext p
      exact hinc p
    | some n =>
      simp only [App.doSearch, Option.all_some, List.filter_filter]
      congr 1
      funext p
      rw [← hinc p, Bool.and_comm]
  refine ⟨key, ?_, fun s2 => rfl⟩
  rw [key]
  exact List.filter_sublist _

/-- C17: after `addItem` the history is the normalized name followed by the
previous history, cut to its first 200 entries: it never holds more than 200
entries, the name just added is first, and what is dropped is the end of
the previous history, its oldest entries. -/
theorem history_after_addItem (s : AppState) (rawName : Str) (qty : Int) :
    (App.addItem s rawName qty).history = (normalizeName rawName :: s.history).take 200 ∧
    (App.addItem s rawName qty).history.length ≤ 200 ∧
    (App.addItem s rawName qty).history.head? = some (normalizeName rawName) ∧
    (App.addItem s rawName qty).history = normalizeName rawName :: s.history.take 199 ∧
    (∃ dropped, s.history = s.history.take 199 ++ dropped) := by
  refine ⟨rfl, ?_, rfl, rfl, ⟨s.history.drop 199, (List.take_append_drop _ _).symm⟩⟩
  show ((normalizeName rawName :: s.history).take 200).length ≤ 200
  rw [List.length_take]
  exact Nat.min_le_left _ _

/-- C19: when no entry has the normalized name (ignoring case), `removeItem`
and `modifyItem` leave the list as it is and still report success: the
message has severity ok and reads "Removed {name}." and
"Set {name} to {qty}.", with the normalized name. -/
theorem remove_modify_absent (s : AppState) (rawName : Str) (qty : Int)
    (h : ∀ x ∈ s.list, sameName (normalizeName rawName) x = false) :
    (App.removeItem s rawName).list = s.list ∧
    (App.removeItem s rawName).listMsg =
      some ⟨.ok, "Removed ".toList ++ normalizeName rawName ++ ".".toList⟩ ∧
    (App.modifyItem s rawName qty).list = s.list ∧
    (App.modifyItem s rawName qty).listMsg =
      some ⟨.ok, "Set ".toList ++ normalizeName rawName ++ " to ".toList ++ numToString qty ++
        ".".toList⟩ := by
  refine ⟨?_, rfl, ?_, rfl⟩
  · show removeItem s.list rawName = s.list
    unfold removeItem
    rw [List.filter_eq_self]
    intro x hx
    simp [h x hx]
  · show modifyItem s.list rawName qty = s.list
    unfold modifyItem
    simp only [(findIndex_eq_none _ s.list).mpr h]

/-- C19, an instance: removing "eggs" from, and setting "eggs" to 3 in, a list
that holds only milk. -/
theorem remove_modify_absent_witness :
    (App.removeItem { list := [{ name := "Milk".toList, qty := 1, category := "Dairy".toList }] }
      "eggs".toList).list = [{ name := "Milk".toList, qty := 1, category := "Dairy".toList }] ∧
    (App.removeItem { list := [{ name := "Milk".toList, qty := 1, category := "Dairy".toList }] }
      "eggs".toList).listMsg = some ⟨.ok, "Removed eggs.".toList⟩ ∧
    (App.modifyItem { list := [{ name := "Milk".toList, qty := 1, category := "Dairy".toList }] }
      "eggs".toList 3).list = [{ name := "Milk".toList, qty := 1, category := "Dairy".toList }] ∧
    (App.modifyItem { list := [{ name := "Milk".toList, qty := 1, category := "Dairy".toList }] }
      "eggs".toList 3).listMsg = some ⟨.ok, "Set eggs to 3.".toList⟩ :=
  remove_modify_absent
    { list := [{ name := "Milk".toList, qty := 1, category := "Dairy".toList }] }
    "eggs".toList 3 (by decide)

/-- C18: applying `modifyItem(name, q)` twice gives the same list as applying
it once; when an entry matches the name (ignoring case, after normalization)
the first matching entry has quantity `q` afterwards and nothing else changes;
and in a list with at most one entry per case-insensitive name, every entry
that matches has quantity `q` afterwards. -/
theorem modifyItem_idempotent (l : List Entry) (rawName : Str) (q : Int) :
    modifyItem (modifyItem l rawName q) rawName q = modifyItem l rawName q ∧
    ((∃ x ∈ l, sameName (normalizeName rawName) x = true) →
      ∃ pre e post, l = pre ++ e :: post ∧
        (∀ x ∈ pre, sameName (normalizeName rawName) x = false) ∧
        sameName (normalizeName rawName) e = true ∧
        modifyItem l rawName q =
          pre ++ { name := e.name, qty := q, category := e.category } :: post) ∧
    (DistinctNames l → ∀ e ∈ modifyItem l rawName q,
      sameName (normalizeName rawName) e = true → e.qty = q) := by
  refine ⟨modifyItem_twice l rawName q, modifyItem_first q, ?_⟩
  intro hd e he hs
  by_cases hex : ∃ x ∈ l, sameName (normalizeName rawName) x = true
  · obtain ⟨pre, e0, post, hl, hpre, he0, hm⟩ := modifyItem_first q hex
    rw [hm] at he
    simp only [List.mem_append, List.mem_cons] at he
    rcases he with h1 | h1 | h1
    · rw [hpre e h1] at hs
      exact absurd hs (by simp)
    · rw [h1]
    · exfalso
      unfold DistinctNames at hd
      rw [hl, List.map_append, List.map_cons, List.nodup_append] at hd
      have hnd := (List.nodup_cons.mp hd.2.1).1
      apply hnd
      simp only [sameName, beq_iff_eq] at hs he0
      rw [List.mem_map]
      exact ⟨e, h1, by rw [hs, he0]⟩
  · have hnone : ∀ x ∈ l, sameName (normalizeName rawName) x = false := by
      intro x hx
      by_contra hc
      exact hex ⟨x, hx, by simpa using hc⟩
    have e1 : modifyItem l rawName q = l := by
      unfold modifyItem
      simp only [(findIndex_eq_none _ l).mpr hnone]
    rw [e1] at he
    rw [hnone e he] at hs
    exact absurd hs (by simp)

/-- C18, an instance: setting "MILK" to 4 in a list with milk and bread. -/
theorem modifyItem_idempotent_witness :
    (∃ x ∈ [({ name := "Bread".toList, qty := 1, category := "Bakery".toList } : Entry),
        { name := "Milk".toList, qty := 2, category := "Dairy".toList }],
      sameName (normalizeName "MILK".toList) x = true) ∧
    modifyItem [{ name := "Bread".toList, qty := 1, category := "Bakery".toList },
        { name := "Milk".toList, qty := 2, category := "Dairy".toList }] "MILK".toList 4 =
      [{ name := "Bread".toList, qty := 1, category := "Bakery".toList },
        { name := "Milk".toList, qty := 4, category := "Dairy".toList }] ∧
    (∃ pre e post,
      [({ name := "Bread".toList, qty := 1, category := "Bakery".toList } : Entry),
        { name := "Milk".toList, qty := 2, category := "Dairy".toList }] = pre ++ e :: post ∧
      (∀ x ∈ pre, sameName (normalizeName "MILK".toList) x = false) ∧
      sameName (normalizeName "MILK".toList) e = true ∧
      modifyItem [{ name := "Bread".toList, qty := 1, category := "Bakery".toList },
        { name := "Milk".toList, qty := 2, category := "Dairy".toList }] "MILK".toList 4 =
        pre ++ { name := e.name, qty := 4, category := e.category } :: post) :=
  ⟨by decide, by decide, (modifyItem_idempotent _ "MILK".toList 4).2.1 (by decide)⟩

/-- With two entries of the same case-insensitive name, which no sequence of
operations produces, `modifyItem` sets the first one only. -/
theorem modifyItem_duplicate_names :
    modifyItem [{ name := "Milk".toList, qty := 1, category := "Dairy".toList },
        { name := "milk".toList, qty := 2, category := "Dairy".toList }] "milk".toList 5 =
      [{ name := "Milk".toList, qty := 5, category := "Dairy".toList },
        { name := "milk".toList, qty := 2, category := "Dairy".toList }] := by
  decide

/-- C16, as the code has it: whenever the suggestions are computed, which is
the case for every history without an empty name, the list has at most 9
entries, at most 6 names from the add frequencies and the 3 seasonal names,
and is the capitalisation, name by name, of pairwise different lower-cased
names of the history and of the seasonal list; and when every name of the
history is made of ASCII characters, no two suggestions are equal ignoring
case.  This holds whatever the case tables do outside ASCII. -/
theorem suggestions_capped (up : Char → Str) (history : List Str) :
    (∀ l, suggestions up history = some l →
      l.length ≤ 9 ∧
      ∃ keys, keys.Nodup ∧ capitalizeAll up keys = some l ∧
        ∀ k ∈ keys, k ∈ freq history ∨ k ∈ seasonal.map toLowerCase) ∧
    ((∀ n ∈ history, n ≠ []) → ∃ l, suggestions up history = some l) ∧
    ((∀ n ∈ history, ∀ c ∈ n, c.toNat < 128) → ∀ l, suggestions up history = some l →
      l.Pairwise (fun a b => toLowerCase a ≠ toLowerCase b)) ∧
    (freq history).length ≤ 6 ∧ seasonal.length = 3 := by
  have hfix : ∀ n ∈ setOf (freq history ++ seasonal.map toLowerCase), toLowerCase n = n := by
    intro n hn
    rcases List.mem_append.mp (mem_setOf hn) with h | h
    · exact freq_keys (fun k => toLowerCase k = k) history
        (fun n _ => toLowerCase_idem n) n h
    · obtain ⟨m, -, rfl⟩ := List.mem_map.mp h
      exact toLowerCase_idem m
  have hlen : (setOf (freq history ++ seasonal.map toLowerCase)).length ≤ 9 := by
    refine Nat.le_trans (setOf_length _) ?_
    rw [List.length_append, List.length_map]
    have := freq_length history
    have h3 : seasonal.length = 3 := rfl
    omega
  refine ⟨?_, ?_, ?_, freq_length history, rfl⟩
  · intro l hl
    constructor
    · rw [capitalizeAll_length up hl]
      exact hlen
    · exact ⟨setOf (freq history ++ seasonal.map toLowerCase), setOf_nodup _, hl,
        fun k hk => List.mem_append.mp (mem_setOf hk)⟩
  · intro hne
    apply capitalizeAll_some
    intro n hn
    rcases List.mem_append.mp (mem_setOf hn) with h | h
    · exact freq_keys (fun k => k ≠ []) history
        (fun n hn2 => toLowerCase_ne_nil (hne n hn2)) n h
    · have hs : ∀ m ∈ seasonal.map toLowerCase, m ≠ [] := by decide
      exact hs n h
  · intro hascii l hl
    have ha : ∀ n ∈ setOf (freq history ++ seasonal.map toLowerCase),
        ∀ c ∈ n, c.toNat < 128 := by
      intro n hn
      rcases List.mem_append.mp (mem_setOf hn) with h | h
      · exact freq_keys (fun k => ∀ c ∈ k, c.toNat < 128) history
          (fun n hn2 => toLowerCase_ascii (hascii n hn2)) n h
      · have hs : ∀ m ∈ seasonal.map toLowerCase, ∀ c ∈ m, c.toNat < 128 := by decide
        exact hs n h
    have hmap := capitalizeAll_lower up hl hfix ha
    have hnd : (l.map toLowerCase).Nodup := by
      rw [hmap]
      exact setOf_nodup _
    exact (List.pairwise_map.mp hnd)

/-- C16, the claim as stated fails: with "ice" and "ıce" (dotless i) in the
history, the two lower-cased names are different and both are kept, and both
are capitalised to "Ice", upper-casing `ı` giving `I`: the first two
suggestions are equal. -/
theorem suggestions_capped_counterexample :
    suggestions upDotless ["ice".toList, Char.ofNat 0x131 :: "ce".toList] =
      some ["Ice".toList, "Ice".toList, "Mangoes".toList, "Brown bread".toList,
        "Toothpaste".toList] ∧
    ¬ ["Ice".toList, "Ice".toList, "Mangoes".toList, "Brown bread".toList,
        "Toothpaste".toList].Pairwise (fun a b => toLowerCase a ≠ toLowerCase b) := by
  decide

/-- C16, an instance: a history of seven different ASCII names, one of them
also seasonal and one added three times. -/
theorem suggestions_capped_witness :
    suggestions upDotless ["Milk".toList, "eggs".toList, "MILK".toList, "rice".toList,
        "tea".toList, "soap".toList, "milk".toList, "mangoes".toList, "salt".toList,
        "oil".toList] =
      some ["Milk".toList, "Eggs".toList, "Rice".toList, "Tea".toList, "Soap".toList,
        "Mangoes".toList, "Brown bread".toList, "Toothpaste".toList] ∧
    ["Milk".toList, "Eggs".toList, "Rice".toList, "Tea".toList, "Soap".toList,
        "Mangoes".toList, "Brown bread".toList, "Toothpaste".toList].Pairwise
        (fun a b => toLowerCase a ≠ toLowerCase b) ∧
    (["Milk".toList, "Eggs".toList, "Rice".toList, "Tea".toList, "Soap".toList,
        "Mangoes".toList, "Brown bread".toList, "Toothpaste".toList].length ≤ 9 ∧
      ∃ keys, keys.Nodup ∧
        capitalizeAll upDotless keys =
          some ["Milk".toList, "Eggs".toList, "Rice".toList, "Tea".toList, "Soap".toList,
            "Mangoes".toList, "Brown bread".toList, "Toothpaste".toList] ∧
        ∀ k ∈ keys,
          k ∈ freq ["Milk".toList, "eggs".toList, "MILK".toList, "rice".toList, "tea".toList,
            "soap".toList, "milk".toList, "mangoes".toList, "salt".toList, "oil".toList] ∨
          k ∈ seasonal.map toLowerCase) ∧
    (∃ l, suggestions upDotless ["Milk".toList, "eggs".toList] = some l) :=
  ⟨by decide,
    (suggestions_capped upDotless ["Milk".toList, "eggs".toList, "MILK".toList, "rice".toList,
      "tea".toList, "soap".toList, "milk".toList, "mangoes".toList, "salt".toList,
      "oil".toList]).2.2.1 (by decide) _ (by decide),
    (suggestions_capped upDotless ["Milk".toList, "eggs".toList, "MILK".toList, "rice".toList,
      "tea".toList, "soap".toList, "milk".toList, "mangoes".toList, "salt".toList,
      "oil".toList]).1 _ (by decide),
    (suggestions_capped upDotless ["Milk".toList, "eggs".toList]).2.1 (by decide)⟩

/-- C20: for every text without a line-break character whose trimmed
lower-cased form begins with "add" or "buy" and a white-space character, the
leading-verb add pattern of line 27 matches and gives the result; so for a
text without line breaks the fallback pattern of line 46 gives the result
only when "add" or "buy" is followed at once by a character that is not white
space, as in "address 2 apples". -/
theorem fallback_only_without_space (text : Str)
    (hline : ∀ ch ∈ text, isLineTerminator ch = false) :
    (∀ verb w rest, (verb = "add".toList ∨ verb = "buy".toList) →
      trim (toLowerCase text) = verb ++ w :: rest → isWhiteSpace w = true →
      ∃ m, addRe.exec (trim (toLowerCase text)) = some m ∧
        parseCommand text = .add (itemOf m) (toNumber m.qty)) ∧
    (∀ m, addRe.exec (trim (toLowerCase text)) = none →
      nounRe.exec (trim (toLowerCase text)) = some m →
      ∃ verb c rest, (verb = "add".toList ∨ verb = "buy".toList) ∧
        trim (toLowerCase text) = verb ++ c :: rest ∧ isWhiteSpace c = false) ∧
    (addRe.exec (trim (toLowerCase "address 2 apples".toList)) = none ∧
      nounRe.exec (trim (toLowerCase "address 2 apples".toList)) =
        some { item := some "apples".toList, qty := some "2".toList } ∧
      parseCommand "address 2 apples".toList = .add "apples".toList 2) := by
  have hT : Tight (trim (toLowerCase text)) := trim_tight_of _
  have hl := no_lineTerminator_trim_lower hline
  refine ⟨?_, ?_, by decide⟩
  · intro verb w rest hv ht hw
    obtain ⟨m, hm⟩ := addRe_matches hv ht hw hT hl
    refine ⟨m, hm, ?_⟩
    obtain ⟨hf, hs⟩ := find_search_nil_of_add_buy hv ht
    have hne : text ≠ [] := by
      rintro rfl
      have h0 : trim (toLowerCase ([] : Str)) = [] := rfl
      rw [h0] at ht
      rcases hv with rfl | rfl <;> simp at ht
    unfold parseCommand
    rw [if_neg hne]
    simp only [exec_of_nil hf, exec_of_nil hs, hm, Option.orElse]
  · intro m ha hn
    obtain ⟨verb, c, rest, hv, ht⟩ := nounRe_shape hn
    refine ⟨verb, c, rest, hv, ht, ?_⟩
    by_contra hc
    have hw : isWhiteSpace c = true := by simpa using hc
    obtain ⟨m2, hm2⟩ := addRe_matches hv ht hw hT hl
    rw [ha] at hm2
    cases hm2

/-- C20, an instance: "Buy  three Milk" is decided by the leading-verb
pattern. -/
theorem fallback_only_without_space_witness :
    (∀ ch ∈ "Buy  three Milk".toList, isLineTerminator ch = false) ∧
    trim (toLowerCase "Buy  three Milk".toList) =
      "buy".toList ++ ' ' :: " three milk".toList ∧
    (∃ m, addRe.exec (trim (toLowerCase "Buy  three Milk".toList)) = some m ∧
      parseCommand "Buy  three Milk".toList = .add (itemOf m) (toNumber m.qty)) ∧
    parseCommand "Buy  three Milk".toList = .add "milk".toList 3 :=
  ⟨by decide, by decide,
    (fallback_only_without_space "Buy  three Milk".toList (by decide)).1 "buy".toList ' '
      " three milk".toList (Or.inr rfl) (by decide) (by decide),
    by decide⟩

/-- With a line break inside the text the leading-verb pattern can fail after
"add" and a space, and the fallback pattern then gives the result. -/
theorem fallback_with_line_break :
    addRe.exec (trim (toLowerCase "add x 2\ny".toList)) = none ∧
    parseCommand "add x 2\ny".toList = .add "y".toList 2 := by
  decide

end Shop
